import Mathlib

/-!
# Verification of the `mk_atlas` texture-atlas packer

Shallow embedding of the core of `src/mk_atlas/mk_atlas.go`:

* geometry (`Point`, `Rectangle`) mirroring Go's `image.Point` /
  `image.Rectangle` (including the coordinate canonicalisation performed by
  `image.Rect`);
* the packing tree `node` with `node.Insert`, `node.FindInsertCandidates`;
* the packer `Atlas.PackImages` (its greedy round, swap-removal of the work
  list, and the commit log);
* the trimmer `TrimImage` / `ImageMaxAlpha`.

Go mutation is rendered as explicit state passing; `panic` is rendered as an
error value.  The unbounded recursion of `Insert` and the `for` loops are
rendered with explicit fuel so that every definition is executable; lemmas
show the fuel is never exhausted in the situations the claims speak about.
Machine integers are modelled as `Int` (the quantities involved are image
dimensions, far from 64-bit overflow).
-/

/-! ## Geometry: `image.Point` and `image.Rectangle` -/

/-- Go's `image.Point`. -/
structure Point where
  X : Int
  Y : Int
deriving DecidableEq

/-- Go's `image.Rectangle`: a min corner and a max corner. -/
structure Rectangle where
  Min : Point
  Max : Point
deriving DecidableEq

def Rectangle.Dx (r : Rectangle) : Int := r.Max.X - r.Min.X

def Rectangle.Dy (r : Rectangle) : Int := r.Max.Y - r.Min.Y

/-- Go's `r.Size()`: `Pt(r.Dx(), r.Dy())`. -/
def Rectangle.Size (r : Rectangle) : Point := ⟨r.Dx, r.Dy⟩

/-- Go's `p.Sub(q)`. -/
def Point.Sub (p q : Point) : Point := ⟨p.X - q.X, p.Y - q.Y⟩

/-- Go's `p.Add(q)`. -/
def Point.Add (p q : Point) : Point := ⟨p.X + q.X, p.Y + q.Y⟩

/-- Go's `image.Rect(x0, y0, x1, y1)`: swaps the coordinates on each axis if
needed so that the result is well-formed. -/
def imageRect (x0 y0 x1 y1 : Int) : Rectangle :=
  let p := if x1 < x0 then (x1, x0) else (x0, x1)
  let q := if y1 < y0 then (y1, y0) else (y0, y1)
  ⟨⟨p.1, q.1⟩, ⟨p.2, q.2⟩⟩

/-- Membership of an integer lattice point in a rectangle (a pixel `(x, y)`
belongs to `r` iff `Min.X ≤ x < Max.X` and `Min.Y ≤ y < Max.Y`). -/
def Rectangle.Mem (r : Rectangle) (x y : Int) : Prop :=
  r.Min.X ≤ x ∧ x < r.Max.X ∧ r.Min.Y ≤ y ∧ y < r.Max.Y

instance (r : Rectangle) (x y : Int) : Decidable (r.Mem x y) := by
  unfold Rectangle.Mem; infer_instance

/-- `a` is contained in `b` (as a region of the plane, componentwise). -/
def Rectangle.Sub (a b : Rectangle) : Prop :=
  b.Min.X ≤ a.Min.X ∧ a.Max.X ≤ b.Max.X ∧ b.Min.Y ≤ a.Min.Y ∧ a.Max.Y ≤ b.Max.Y

instance (a b : Rectangle) : Decidable (a.Sub b) := by
  unfold Rectangle.Sub; infer_instance

/-- A rectangle whose corners are ordered (what `image.Rect` always returns). -/
def Rectangle.Proper (r : Rectangle) : Prop :=
  r.Min.X ≤ r.Max.X ∧ r.Min.Y ≤ r.Max.Y

instance (r : Rectangle) : Decidable r.Proper := by
  unfold Rectangle.Proper; infer_instance

theorem imageRect_of_le {x0 y0 x1 y1 : Int} (hx : x0 ≤ x1) (hy : y0 ≤ y1) :
    imageRect x0 y0 x1 y1 = ⟨⟨x0, y0⟩, ⟨x1, y1⟩⟩ := by
  unfold imageRect
  rw [if_neg (by omega), if_neg (by omega)]

theorem imageRect_proper (x0 y0 x1 y1 : Int) : (imageRect x0 y0 x1 y1).Proper := by
  unfold imageRect Rectangle.Proper
  split <;> split <;> simp <;> omega

/-! ## The packing tree

Go's `node` has fields `Left, Right *node`, `Rect image.Rectangle`,
`Used bool`; `Left` and `Right` are always both nil or both non-nil, so the
type is rendered as a leaf/internal inductive. -/

inductive node where
  | leaf : Rectangle → Bool → node
  | internal : Rectangle → Bool → node → node → node
deriving DecidableEq

def node.Rect : node → Rectangle
  | .leaf r _ => r
  | .internal r _ _ _ => r

def node.Used : node → Bool
  | .leaf _ u => u
  | .internal _ u _ _ => u

/-- `n.Used = true` (keeping everything else), as in `n.Used = true` in Go. -/
def node.markUsed : node → node
  | .leaf r _ => .leaf r true
  | .internal r _ l rt => .internal r true l rt

/-- Does the node have children (`Left != nil` in Go)? -/
def node.hasChildren : node → Bool
  | .leaf _ _ => false
  | .internal _ _ _ _ => true

/-- Outcome of a Go `panic` inside `Insert` (`panic("!")`), resp. exhaustion
of the termination fuel. -/
inductive InsertErr where
  | panic
  | fuel
deriving DecidableEq

/-- Go's `node.Insert`.  The original mutates the receiver and returns the
placed rectangle; here the updated subtree is returned alongside.  `panic` is
`.error .panic`; the Go recursion is unbounded, so a fuel argument makes the
definition total (`.error .fuel` when it runs out). -/
def node.Insert : Nat → node → Point → Except InsertErr (node × Rectangle)
  | 0, _, _ => .error .fuel
  | fuel+1, n, size =>
    if n.Used then .error .panic
    else
      let ds := n.Rect.Size.Sub size
      if ds.X < 0 ∨ ds.Y < 0 then .error .panic
      else if ds.X = 0 ∧ ds.Y = 0 then .ok (n.markUsed, n.Rect)
      else if ds.X ≥ ds.Y then
        match node.Insert fuel
            (.leaf (imageRect n.Rect.Min.X n.Rect.Min.Y (n.Rect.Min.X + size.X) n.Rect.Max.Y) false)
            size with
        | .ok (l', r) =>
            .ok (.internal n.Rect true l'
              (.leaf (imageRect (n.Rect.Min.X + size.X) n.Rect.Min.Y n.Rect.Max.X n.Rect.Max.Y) false), r)
        | .error e => .error e
      else
        match node.Insert fuel
            (.leaf (imageRect n.Rect.Min.X n.Rect.Min.Y n.Rect.Max.X (n.Rect.Min.Y + size.Y)) false)
            size with
        | .ok (l', r) =>
            .ok (.internal n.Rect true l'
              (.leaf (imageRect n.Rect.Min.X (n.Rect.Min.Y + size.Y) n.Rect.Max.X n.Rect.Max.Y) false), r)
        | .error e => .error e

/-- Fuel that suffices for `Insert` on genuine (non-negative) sizes: the
recursion zeroes one slack axis per split, so its depth is at most 3. -/
def insertFuel : Nat := 3

/-- A path from a node down to a descendant: `false` = `Left`, `true` =
`Right`.  Stands for the node pointers Go passes around. -/
abbrev NodePath := List Bool

/-- Insert at the node addressed by a path (the functional account of Go's
`bestCandidate.Candidate.Insert(...)`, which mutates an interior node).
Descending a path that leaves the tree is a nil-pointer dereference in Go,
rendered as `.panic`. -/
def node.InsertAt (fuel : Nat) : node → NodePath → Point → Except InsertErr (node × Rectangle)
  | n, [], size => node.Insert fuel n size
  | .internal r u l rt, false :: p, size =>
      match node.InsertAt fuel l p size with
      | .ok (l', rr) => .ok (.internal r u l' rt, rr)
      | .error e => .error e
  | .internal r u l rt, true :: p, size =>
      match node.InsertAt fuel rt p size with
      | .ok (rt', rr) => .ok (.internal r u l rt', rr)
      | .error e => .error e
  | .leaf _ _, _ :: _, _ => .error .panic

/-- One commit operation: a target node (path) and a requested size. -/
abbrev InsertOp := NodePath × Point

/-- Apply a sequence of commit (`Insert`) operations starting from a tree;
operations that would panic leave the tree unchanged (in Go the program would
abort, so in particular no tree mutated by a panicking operation is ever
observed). -/
def node.applyOps (t : node) (ops : List InsertOp) : node :=
  ops.foldl (fun t op =>
    match node.InsertAt insertFuel t op.1 op.2 with
    | .ok (t', _) => t'
    | .error _ => t) t

/-! ## Tree invariants

Executable (`Bool`-valued) invariants of packing trees, plus the partition
properties the spec states. -/

/-- Every rectangle in the tree is well-formed (always true of trees the
program builds, since every rectangle comes out of `image.Rect`). -/
def node.propAllB : node → Bool
  | .leaf r _ => decide r.Proper
  | .internal r _ l rt => decide r.Proper && l.propAllB && rt.propAllB

/-- Every internal node is marked used.  (This is the invariant `Insert`
actually maintains: it sets `Used` on a node *before* splitting it.) -/
def node.goodUsedB : node → Bool
  | .leaf _ _ => true
  | .internal _ u l rt => u && l.goodUsedB && rt.goodUsedB

/-- Children's rectangles are contained in their parent's. -/
def node.subRectsB : node → Bool
  | .leaf _ _ => true
  | .internal r _ l rt =>
      decide (l.Rect.Sub r) && decide (rt.Rect.Sub r) && l.subRectsB && rt.subRectsB

/-- At every internal node the two children's rectangles exactly reconstitute
the parent's rectangle: together they cover it, and they do not overlap. -/
def node.childrenPartition : node → Prop
  | .leaf _ _ => True
  | .internal r _ l rt =>
      (∀ x y, r.Mem x y ↔ (l.Rect.Mem x y ∨ rt.Rect.Mem x y)) ∧
      (∀ x y, ¬(l.Rect.Mem x y ∧ rt.Rect.Mem x y)) ∧
      l.childrenPartition ∧ rt.childrenPartition

/-- How many leaf rectangles of the tree contain the pixel `(x, y)`. -/
def node.countLeaves : node → Int → Int → Nat
  | .leaf r _, x, y => if r.Mem x y then 1 else 0
  | .internal _ _ l rt, x, y => l.countLeaves x y + rt.countLeaves x y

/-- The pixel `(x, y)` lies in the rectangle of some *unused leaf* (i.e. in a
free region of the tree). -/
def node.freeMem : node → Int → Int → Prop
  | .leaf r u, x, y => u = false ∧ r.Mem x y
  | .internal _ _ l rt, x, y => l.freeMem x y ∨ rt.freeMem x y

/-- The leaf rectangles tile the root rectangle: every pixel of the root's
rectangle lies in exactly one leaf rectangle, and pixels outside it in none
(pairwise non-overlap plus exact union, in one statement). -/
def node.leafPartition (t : node) : Prop :=
  ∀ x y : Int, t.countLeaves x y = if t.Rect.Mem x y then 1 else 0

/-- The reachable-tree invariant bundle. -/
def node.Inv (t : node) : Prop :=
  t.goodUsedB = true ∧ t.propAllB = true ∧ t.subRectsB = true ∧ t.childrenPartition

theorem node.countLeaves_of_childrenPartition :
    ∀ (t : node), t.childrenPartition →
      ∀ x y, t.countLeaves x y = if t.Rect.Mem x y then 1 else 0 := by
  intro t
  induction t with
  | leaf r u => intro _ x y; rfl
  | internal r u l rt ihl ihr =>
      intro hcp x y
      obtain ⟨hcov, hdis, hl, hr⟩ := hcp
      have h1 := ihl hl x y
      have h2 := ihr hr x y
      simp only [node.countLeaves, h1, h2]
      have hrect : (node.internal r u l rt).Rect = r := rfl
      rw [hrect]
      have hc := hcov x y
      have hd := hdis x y
      split_ifs <;> simp_all

theorem node.freeMem_rect :
    ∀ (t : node), t.subRectsB = true → ∀ x y, t.freeMem x y → t.Rect.Mem x y := by
  intro t
  induction t with
  | leaf r u => intro _ x y h; exact h.2
  | internal r u l rt ihl ihr =>
      intro hs x y h
      simp only [node.subRectsB, Bool.and_eq_true, decide_eq_true_eq] at hs
      obtain ⟨⟨⟨hsl, hsr⟩, hls⟩, hrs⟩ := hs
      rcases h with h | h
      · have := ihl hls x y h
        simp only [Rectangle.Mem, node.Rect] at *
        obtain ⟨a, b, c, d⟩ := hsl
        omega
      · have := ihr hrs x y h
        simp only [Rectangle.Mem, node.Rect] at *
        obtain ⟨a, b, c, d⟩ := hsr
        omega

/-- Full specification of a successful `Insert` on a node satisfying the
reachable-tree invariants: the node was an unused leaf large enough for the
request; the returned rectangle sits at the node's min corner with exactly the
requested size; the updated subtree keeps the node's rectangle, is marked
used, satisfies all invariants, has the same leaf tiling; its free region
shrinks to a subset of the old free region minus the returned rectangle, and
the returned rectangle was free before. -/
theorem node.Insert_spec :
    ∀ (fuel : Nat) (n n' : node) (size : Point) (rr : Rectangle),
      node.Insert fuel n size = .ok (n', rr) →
      n.goodUsedB = true → n.Rect.Proper → 0 ≤ size.X → 0 ≤ size.Y →
      n'.Rect = n.Rect ∧
      n.Used = false ∧
      rr = ⟨n.Rect.Min, ⟨n.Rect.Min.X + size.X, n.Rect.Min.Y + size.Y⟩⟩ ∧
      size.X ≤ n.Rect.Dx ∧ size.Y ≤ n.Rect.Dy ∧
      n'.Used = true ∧
      n'.goodUsedB = true ∧ n'.propAllB = true ∧ n'.subRectsB = true ∧
      n'.childrenPartition ∧
      (∀ x y, n'.countLeaves x y = n.countLeaves x y) ∧
      (∀ x y, n'.freeMem x y → n.freeMem x y ∧ ¬ rr.Mem x y) ∧
      (∀ x y, rr.Mem x y → n.freeMem x y) := by
  intro fuel
  induction fuel with
  | zero => intro n n' size rr h _ _ _ _; simp [node.Insert] at h
  | succ fuel ih =>
    intro n n' size rr h hg hp hx hy
    rcases n with ⟨rect, u⟩ | ⟨rect, u, l, rt⟩
    case internal =>
      simp only [node.goodUsedB, Bool.and_eq_true] at hg
      simp [node.Insert, node.Used, hg.1.1] at h
    case leaf =>
      cases u
      case true => simp [node.Insert, node.Used] at h
      case false =>
      obtain ⟨⟨mx, my⟩, ⟨Mx, My⟩⟩ := rect
      obtain ⟨sx, sy⟩ := size
      have hp' : mx ≤ Mx ∧ my ≤ My := hp
      have hx : (0:Int) ≤ sx := hx
      have hy : (0:Int) ≤ sy := hy
      simp only [node.Insert, node.Used, node.Rect, node.markUsed, Rectangle.Size,
        Point.Sub, Rectangle.Dx, Rectangle.Dy] at h
      rw [if_neg (by simp)] at h
      by_cases hneg : Mx - mx - sx < 0 ∨ My - my - sy < 0
      · rw [if_pos hneg] at h; simp at h
      rw [if_neg hneg] at h
      push_neg at hneg
      by_cases hexact : Mx - mx - sx = 0 ∧ My - my - sy = 0
      · -- exact fit: mark used, return the node's rectangle
        rw [if_pos hexact] at h
        simp only [Except.ok.injEq, Prod.mk.injEq] at h
        obtain ⟨hn', hrr⟩ := h
        subst hn'; subst hrr
        refine ⟨rfl, rfl, ?_, ?_, ?_, rfl, rfl, ?_, rfl, trivial, fun x y => rfl, ?_, ?_⟩
        · simp only [Rectangle.mk.injEq, Point.mk.injEq]
          refine ⟨rfl, ?_, ?_⟩ <;> simp only [node.Rect] <;> omega
        · show sx ≤ Mx - mx; omega
        · show sy ≤ My - my; omega
        · simp [node.propAllB, Rectangle.Proper]; omega
        · intro x y hf
          exact absurd hf.1 (by simp)
        · intro x y hm
          exact ⟨rfl, hm⟩
      rw [if_neg hexact] at h
      by_cases hge : Mx - mx - sx ≥ My - my - sy
      · -- vertical split
        rw [if_pos hge] at h
        rw [imageRect_of_le (by omega) (by omega), imageRect_of_le (by omega) (by omega)] at h
        split at h
        next l' r1 heq =>
          simp only [Except.ok.injEq, Prod.mk.injEq] at h
          obtain ⟨hn', hrr⟩ := h
          subst hn'
          have spec := ih _ _ _ _ heq rfl
            (by simp only [node.Rect, Rectangle.Proper]; omega) hx hy
          obtain ⟨sRect, -, sRR, sDx, sDy, sUsed, sGood, sProp, sSub, sCP, sCount, sFree, sMemFree⟩ := spec
          subst hrr
          have hr1 : r1 = ⟨⟨mx, my⟩, ⟨mx + sx, my + sy⟩⟩ := by
            rw [sRR]; simp only [node.Rect]
          subst hr1
          refine ⟨rfl, rfl, by simp only [node.Rect], ?_, ?_, rfl, ?_, ?_, ?_, ?_, ?_, ?_, ?_⟩
          · show sx ≤ Mx - mx; omega
          · show sy ≤ My - my; omega
          · simp [node.goodUsedB, sGood]
          · simp only [node.propAllB, Bool.and_eq_true, decide_eq_true_eq]
            refine ⟨⟨?_, sProp⟩, ?_⟩
            · simp only [Rectangle.Proper]; omega
            · simp only [node.propAllB, Rectangle.Proper, decide_eq_true_eq]; omega
          · simp only [node.subRectsB, Bool.and_eq_true, decide_eq_true_eq]
            rw [sRect]
            refine ⟨⟨⟨?_, ?_⟩, sSub⟩, by trivial⟩
            · simp only [node.Rect, Rectangle.Sub]; omega
            · simp only [node.Rect, Rectangle.Sub]; omega
          · refine ⟨?_, ?_, sCP, trivial⟩
            · intro x y
              rw [sRect]
              simp only [node.Rect, Rectangle.Mem]
              omega
            · intro x y
              rw [sRect]
              simp only [node.Rect, Rectangle.Mem]
              omega
          · intro x y
            simp only [node.countLeaves, sCount x y]
            simp only [node.countLeaves, Rectangle.Mem]
            split_ifs <;> omega
          · intro x y hf
            rcases hf with hf | hf
            · obtain ⟨hf1, hf2⟩ := sFree x y hf
              obtain ⟨-, hf1⟩ := hf1
              simp only [Rectangle.Mem] at hf1 ⊢
              refine ⟨⟨rfl, ?_⟩, ?_⟩ <;> simp only [Rectangle.Mem] at hf2 ⊢ <;> omega
            · obtain ⟨-, hf⟩ := hf
              simp only [node.freeMem, Rectangle.Mem] at hf ⊢
              refine ⟨⟨by trivial, by omega⟩, by omega⟩
          · intro x y hm
            simp only [Rectangle.Mem] at hm
            exact ⟨rfl, by simp only [Rectangle.Mem]; omega⟩
        next e heq => simp at h
      · -- horizontal split
        rw [if_neg hge] at h
        rw [imageRect_of_le (by omega) (by omega), imageRect_of_le (by omega) (by omega)] at h
        split at h
        next l' r1 heq =>
          simp only [Except.ok.injEq, Prod.mk.injEq] at h
          obtain ⟨hn', hrr⟩ := h
          subst hn'
          have spec := ih _ _ _ _ heq rfl
            (by simp only [node.Rect, Rectangle.Proper]; omega) hx hy
          obtain ⟨sRect, -, sRR, sDx, sDy, sUsed, sGood, sProp, sSub, sCP, sCount, sFree, sMemFree⟩ := spec
          subst hrr
          have hr1 : r1 = ⟨⟨mx, my⟩, ⟨mx + sx, my + sy⟩⟩ := by
            rw [sRR]; simp only [node.Rect]
          subst hr1
          refine ⟨rfl, rfl, by simp only [node.Rect], ?_, ?_, rfl, ?_, ?_, ?_, ?_, ?_, ?_, ?_⟩
          · show sx ≤ Mx - mx; omega
          · show sy ≤ My - my; omega
          · simp [node.goodUsedB, sGood]
          · simp only [node.propAllB, Bool.and_eq_true, decide_eq_true_eq]
            refine ⟨⟨?_, sProp⟩, ?_⟩
            · simp only [Rectangle.Proper]; omega
            · simp only [node.propAllB, Rectangle.Proper, decide_eq_true_eq]; omega
          · simp only [node.subRectsB, Bool.and_eq_true, decide_eq_true_eq]
            rw [sRect]
            refine ⟨⟨⟨?_, ?_⟩, sSub⟩, by trivial⟩
            · simp only [node.Rect, Rectangle.Sub]; omega
            · simp only [node.Rect, Rectangle.Sub]; omega
          · refine ⟨?_, ?_, sCP, trivial⟩
            · intro x y
              rw [sRect]
              simp only [node.Rect, Rectangle.Mem]
              omega
            · intro x y
              rw [sRect]
              simp only [node.Rect, Rectangle.Mem]
              omega
          · intro x y
            simp only [node.countLeaves, sCount x y]
            simp only [node.countLeaves, Rectangle.Mem]
            split_ifs <;> omega
          · intro x y hf
            rcases hf with hf | hf
            · obtain ⟨hf1, hf2⟩ := sFree x y hf
              obtain ⟨-, hf1⟩ := hf1
              simp only [Rectangle.Mem] at hf1 ⊢
              refine ⟨⟨rfl, ?_⟩, ?_⟩ <;> simp only [Rectangle.Mem] at hf2 ⊢ <;> omega
            · obtain ⟨-, hf⟩ := hf
              simp only [node.freeMem, Rectangle.Mem] at hf ⊢
              refine ⟨⟨by trivial, by omega⟩, by omega⟩
          · intro x y hm
            simp only [Rectangle.Mem] at hm
            exact ⟨rfl, by simp only [Rectangle.Mem]; omega⟩
        next e heq => simp at h

/-- `Insert` panics (never returns an error value) exactly as the spec says:
on an already-used node, or on a node smaller than the request in either
dimension. -/
theorem node.Insert_panic {fuel : Nat} {n : node} {size : Point}
    (h : n.Used = true ∨ n.Rect.Dx < size.X ∨ n.Rect.Dy < size.Y) :
    node.Insert (fuel + 1) n size = .error .panic := by
  simp only [node.Insert]
  split
  · rfl
  · next hu =>
    rw [if_pos]
    have h' : n.Rect.Dx < size.X ∨ n.Rect.Dy < size.Y := by tauto
    simp only [Rectangle.Size, Point.Sub]
    omega

/-- `Insert` succeeds on an unused node that is large enough, provided the
fuel covers the recursion depth (one unit per remaining non-zero slack axis,
plus one). -/
theorem node.Insert_isOk :
    ∀ (fuel : Nat) (n : node) (size : Point),
      n.Used = false → n.Rect.Proper → 0 ≤ size.X → 0 ≤ size.Y →
      size.X ≤ n.Rect.Dx → size.Y ≤ n.Rect.Dy →
      (if n.Rect.Dx - size.X = 0 then 0 else 1) +
        (if n.Rect.Dy - size.Y = 0 then 0 else 1) + 1 ≤ fuel →
      ∃ n' rr, node.Insert fuel n size = .ok (n', rr) := by
  intro fuel
  induction fuel with
  | zero => intro n size _ _ _ _ _ _ hm; split_ifs at hm <;> omega
  | succ fuel ih =>
    intro n size hu hp hx hy hdx hdy hm
    have hp1 : n.Rect.Min.X ≤ n.Rect.Max.X := hp.1
    have hp2 : n.Rect.Min.Y ≤ n.Rect.Max.Y := hp.2
    simp only [Rectangle.Dx, Rectangle.Dy] at hdx hdy hm
    simp only [node.Insert, Rectangle.Size, Point.Sub, Rectangle.Dx, Rectangle.Dy, hu]
    rw [if_neg (by simp [hu]), if_neg (by omega)]
    by_cases hex : n.Rect.Max.X - n.Rect.Min.X - size.X = 0 ∧ n.Rect.Max.Y - n.Rect.Min.Y - size.Y = 0
    · rw [if_pos hex]
      exact ⟨_, _, rfl⟩
    rw [if_neg hex]
    by_cases hge : n.Rect.Max.X - n.Rect.Min.X - size.X ≥ n.Rect.Max.Y - n.Rect.Min.Y - size.Y
    · rw [if_pos hge]
      rw [imageRect_of_le (by omega) (by omega)]
      obtain ⟨n', rr, hrec⟩ :=
        ih (.leaf ⟨⟨n.Rect.Min.X, n.Rect.Min.Y⟩, ⟨n.Rect.Min.X + size.X, n.Rect.Max.Y⟩⟩ false) size
          rfl
          (by exact ⟨(by omega : n.Rect.Min.X ≤ n.Rect.Min.X + size.X), hp2⟩) hx hy
          (by exact (by omega : size.X ≤ n.Rect.Min.X + size.X - n.Rect.Min.X))
          (by exact hdy)
          (by show (if n.Rect.Min.X + size.X - n.Rect.Min.X - size.X = 0 then (0:Nat) else 1) +
                (if n.Rect.Max.Y - n.Rect.Min.Y - size.Y = 0 then (0:Nat) else 1) + 1 ≤ fuel
              split_ifs at hm ⊢ <;> omega)
      rw [hrec]
      exact ⟨_, _, rfl⟩
    · rw [if_neg hge]
      rw [imageRect_of_le (by omega) (by omega)]
      obtain ⟨n', rr, hrec⟩ :=
        ih (.leaf ⟨⟨n.Rect.Min.X, n.Rect.Min.Y⟩, ⟨n.Rect.Max.X, n.Rect.Min.Y + size.Y⟩⟩ false) size
          rfl
          (by exact ⟨hp1, (by omega : n.Rect.Min.Y ≤ n.Rect.Min.Y + size.Y)⟩) hx hy
          (by exact hdx)
          (by exact (by omega : size.Y ≤ n.Rect.Min.Y + size.Y - n.Rect.Min.Y))
          (by show (if n.Rect.Max.X - n.Rect.Min.X - size.X = 0 then (0:Nat) else 1) +
                (if n.Rect.Min.Y + size.Y - n.Rect.Min.Y - size.Y = 0 then (0:Nat) else 1) + 1 ≤ fuel
              split_ifs at hm ⊢ <;> omega)
      rw [hrec]
      exact ⟨_, _, rfl⟩

theorem node.propAllB_proper {t : node} (h : t.propAllB = true) : t.Rect.Proper := by
  cases t with
  | leaf r u =>
      simp only [node.propAllB, decide_eq_true_eq] at h
      exact h
  | internal r u l rt =>
      simp only [node.propAllB, Bool.and_eq_true, decide_eq_true_eq] at h
      exact h.1.1

theorem node.InsertAt_nil (fuel : Nat) (t : node) (size : Point) :
    node.InsertAt fuel t [] size = node.Insert fuel t size := by
  cases t <;> rfl

/-- Lift of `Insert_spec` to an insertion at an arbitrary node of the tree
(the way `PackImages` commits into the candidate node it selected). -/
theorem node.InsertAt_spec :
    ∀ (p : NodePath) (fuel : Nat) (t t' : node) (size : Point) (rr : Rectangle),
      node.InsertAt fuel t p size = .ok (t', rr) →
      t.goodUsedB = true → t.propAllB = true → t.subRectsB = true → t.childrenPartition →
      0 ≤ size.X → 0 ≤ size.Y →
      t'.Rect = t.Rect ∧
      rr.Max = rr.Min.Add size ∧
      t'.goodUsedB = true ∧ t'.propAllB = true ∧ t'.subRectsB = true ∧ t'.childrenPartition ∧
      (∀ x y, t'.countLeaves x y = t.countLeaves x y) ∧
      (∀ x y, t'.freeMem x y → t.freeMem x y ∧ ¬ rr.Mem x y) ∧
      (∀ x y, rr.Mem x y → t.freeMem x y) := by
  intro p
  induction p with
  | nil =>
      intro fuel t t' size rr h hg hpa hsr hcp hx hy
      rw [node.InsertAt_nil] at h
      obtain ⟨c1, -, c3, -, -, -, c7, c8, c9, c10, c11, c12, c13⟩ :=
        node.Insert_spec fuel t t' size rr h hg (node.propAllB_proper hpa) hx hy
      refine ⟨c1, ?_, c7, c8, c9, c10, c11, c12, c13⟩
      rw [c3]
      rfl
  | cons b p ih =>
      intro fuel t t' size rr h hg hpa hsr hcp hx hy
      rcases t with ⟨rect, u⟩ | ⟨rect, u, l, rt⟩
      · cases b <;> simp [node.InsertAt] at h
      · simp only [node.goodUsedB, Bool.and_eq_true] at hg
        obtain ⟨⟨hu, hgl⟩, hgr⟩ := hg
        simp only [node.propAllB, Bool.and_eq_true, decide_eq_true_eq] at hpa
        obtain ⟨⟨hpr, hpal⟩, hpar⟩ := hpa
        simp only [node.subRectsB, Bool.and_eq_true, decide_eq_true_eq] at hsr
        obtain ⟨⟨⟨hsl, hsr'⟩, hsrl⟩, hsrr⟩ := hsr
        obtain ⟨hcov, hdis, hcpl, hcpr⟩ := hcp
        cases b
        · -- descend left
          simp only [node.InsertAt] at h
          split at h
          next l' rr1 heq =>
            simp only [Except.ok.injEq, Prod.mk.injEq] at h
            obtain ⟨ht', hrr⟩ := h
            subst ht'; subst hrr
            obtain ⟨iRect, iMax, iGood, iProp, iSub, iCP, iCount, iFree, iMemFree⟩ :=
              ih fuel l l' size rr1 heq hgl hpal hsrl hcpl hx hy
            refine ⟨rfl, iMax, ?_, ?_, ?_, ?_, ?_, ?_, ?_⟩
            · simp [node.goodUsedB, hu, iGood, hgr]
            · simp only [node.propAllB, Bool.and_eq_true, decide_eq_true_eq]
              exact ⟨⟨hpr, iProp⟩, hpar⟩
            · simp only [node.subRectsB, Bool.and_eq_true, decide_eq_true_eq]
              rw [iRect]
              exact ⟨⟨⟨hsl, hsr'⟩, iSub⟩, hsrr⟩
            · refine ⟨?_, ?_, iCP, hcpr⟩
              · intro x y; rw [iRect]; exact hcov x y
              · intro x y; rw [iRect]; exact hdis x y
            · intro x y
              simp only [node.countLeaves, iCount x y]
            · intro x y hf
              rcases hf with hf | hf
              · obtain ⟨h1, h2⟩ := iFree x y hf
                exact ⟨Or.inl h1, h2⟩
              · refine ⟨Or.inr hf, fun hmem => ?_⟩
                have h1 := iMemFree x y hmem
                have h2 := node.freeMem_rect l hsrl x y h1
                have h3 := node.freeMem_rect rt hsrr x y hf
                rw [iRect] at *
                exact hdis x y ⟨h2, h3⟩
            · intro x y hm
              exact Or.inl (iMemFree x y hm)
          next e heq => simp at h
        · -- descend right
          simp only [node.InsertAt] at h
          split at h
          next rt' rr1 heq =>
            simp only [Except.ok.injEq, Prod.mk.injEq] at h
            obtain ⟨ht', hrr⟩ := h
            subst ht'; subst hrr
            obtain ⟨iRect, iMax, iGood, iProp, iSub, iCP, iCount, iFree, iMemFree⟩ :=
              ih fuel rt rt' size rr1 heq hgr hpar hsrr hcpr hx hy
            refine ⟨rfl, iMax, ?_, ?_, ?_, ?_, ?_, ?_, ?_⟩
            · simp [node.goodUsedB, hu, iGood, hgl]
            · simp only [node.propAllB, Bool.and_eq_true, decide_eq_true_eq]
              exact ⟨⟨hpr, hpal⟩, iProp⟩
            · simp only [node.subRectsB, Bool.and_eq_true, decide_eq_true_eq]
              rw [iRect]
              exact ⟨⟨⟨hsl, hsr'⟩, hsrl⟩, iSub⟩
            · refine ⟨?_, ?_, hcpl, iCP⟩
              · intro x y; rw [iRect]; exact hcov x y
              · intro x y; rw [iRect]; exact hdis x y
            · intro x y
              simp only [node.countLeaves, iCount x y]
            · intro x y hf
              rcases hf with hf | hf
              · refine ⟨Or.inl hf, fun hmem => ?_⟩
                have h1 := iMemFree x y hmem
                have h2 := node.freeMem_rect rt hsrr x y h1
                have h3 := node.freeMem_rect l hsrl x y hf
                rw [iRect] at *
                exact hdis x y ⟨h3, h2⟩
              · obtain ⟨h1, h2⟩ := iFree x y hf
                exact ⟨Or.inr h1, h2⟩
            · intro x y hm
              exact Or.inr (iMemFree x y hm)
          next e heq => simp at h

/-- The leaf (rectangle and used flag) reached by a path, if any. -/
def node.leafAt : node → NodePath → Option (Rectangle × Bool)
  | .leaf r u, [] => some (r, u)
  | .internal _ _ _ _, [] => none
  | .internal _ _ l _, false :: p => l.leafAt p
  | .internal _ _ _ rt, true :: p => rt.leafAt p
  | .leaf _ _, _ :: _ => none

/-- Committing into an unused leaf that is large enough always succeeds
within `insertFuel`. -/
theorem node.InsertAt_isOk :
    ∀ (p : NodePath) (t : node) (size : Point) (rl : Rectangle),
      t.leafAt p = some (rl, false) →
      t.propAllB = true →
      0 ≤ size.X → 0 ≤ size.Y → size.X ≤ rl.Dx → size.Y ≤ rl.Dy →
      ∃ t' rr, node.InsertAt insertFuel t p size = .ok (t', rr) := by
  intro p
  induction p with
  | nil =>
      intro t size rl hleaf hpa hx hy hdx hdy
      rcases t with ⟨rect, u⟩ | ⟨rect, u, l, rt⟩
      · simp only [node.leafAt, Option.some.injEq, Prod.mk.injEq] at hleaf
        obtain ⟨hr, hu⟩ := hleaf
        subst hr; subst hu
        obtain ⟨t', rr, hok⟩ :=
          node.Insert_isOk insertFuel (.leaf rect false) size rfl
            (node.propAllB_proper hpa) hx hy hdx hdy
            (by show _ + _ + 1 ≤ 3; split_ifs <;> omega)
        exact ⟨t', rr, by rw [node.InsertAt_nil]; exact hok⟩
      · simp [node.leafAt] at hleaf
  | cons b p ih =>
      intro t size rl hleaf hpa hx hy hdx hdy
      rcases t with ⟨rect, u⟩ | ⟨rect, u, l, rt⟩
      · cases b <;> simp [node.leafAt] at hleaf
      · simp only [node.propAllB, Bool.and_eq_true, decide_eq_true_eq] at hpa
        obtain ⟨⟨hpr, hpal⟩, hpar⟩ := hpa
        cases b
        · have hleaf' : l.leafAt p = some (rl, false) := hleaf
          obtain ⟨t', rr, hok⟩ := ih l size rl hleaf' hpal hx hy hdx hdy
          refine ⟨.internal rect u t' rt, rr, ?_⟩
          simp only [node.InsertAt, hok]
        · have hleaf' : rt.leafAt p = some (rl, false) := hleaf
          obtain ⟨t', rr, hok⟩ := ih rt size rl hleaf' hpar hx hy hdx hdy
          refine ⟨.internal rect u l t', rr, ?_⟩
          simp only [node.InsertAt, hok]

/-- `Insert` preserves "every node with children is marked used"
unconditionally. -/
theorem node.Insert_goodUsed :
    ∀ (fuel : Nat) (n n' : node) (size : Point) (rr : Rectangle),
      node.Insert fuel n size = .ok (n', rr) →
      n.goodUsedB = true → n'.goodUsedB = true := by
  intro fuel
  induction fuel with
  | zero => intro n n' size rr h _; simp [node.Insert] at h
  | succ fuel ih =>
    intro n n' size rr h hg
    simp only [node.Insert] at h
    split at h
    · simp at h
    · next hu =>
      split at h
      · simp at h
      split at h
      · simp only [Except.ok.injEq, Prod.mk.injEq] at h
        obtain ⟨hn', -⟩ := h
        subst hn'
        cases n with
        | leaf r u => simp [node.markUsed, node.goodUsedB]
        | internal r u l rt =>
            simp only [node.goodUsedB, Bool.and_eq_true] at hg
            simp [node.markUsed, node.goodUsedB, hg.1.2, hg.2]
      split at h
      · split at h
        next l' rr1 heq =>
          simp only [Except.ok.injEq, Prod.mk.injEq] at h
          obtain ⟨hn', -⟩ := h
          subst hn'
          have hgl := ih _ _ _ _ heq rfl
          simp [node.goodUsedB, hgl]
        next e heq => simp at h
      · split at h
        next l' rr1 heq =>
          simp only [Except.ok.injEq, Prod.mk.injEq] at h
          obtain ⟨hn', -⟩ := h
          subst hn'
          have hgl := ih _ _ _ _ heq rfl
          simp [node.goodUsedB, hgl]
        next e heq => simp at h

theorem node.InsertAt_goodUsed :
    ∀ (p : NodePath) (fuel : Nat) (t t' : node) (size : Point) (rr : Rectangle),
      node.InsertAt fuel t p size = .ok (t', rr) →
      t.goodUsedB = true → t'.goodUsedB = true := by
  intro p
  induction p with
  | nil =>
      intro fuel t t' size rr h hg
      rw [node.InsertAt_nil] at h
      exact node.Insert_goodUsed fuel t t' size rr h hg
  | cons b p ih =>
      intro fuel t t' size rr h hg
      rcases t with ⟨rect, u⟩ | ⟨rect, u, l, rt⟩
      · cases b <;> simp [node.InsertAt] at h
      · simp only [node.goodUsedB, Bool.and_eq_true] at hg
        obtain ⟨⟨hu, hgl⟩, hgr⟩ := hg
        cases b
        · simp only [node.InsertAt] at h
          split at h
          next l' rr1 heq =>
            simp only [Except.ok.injEq, Prod.mk.injEq] at h
            obtain ⟨ht', -⟩ := h
            subst ht'
            simp [node.goodUsedB, hu, hgr, ih _ _ _ _ _ heq hgl]
          next e heq => simp at h
        · simp only [node.InsertAt] at h
          split at h
          next rt' rr1 heq =>
            simp only [Except.ok.injEq, Prod.mk.injEq] at h
            obtain ⟨ht', -⟩ := h
            subst ht'
            simp [node.goodUsedB, hu, hgl, ih _ _ _ _ _ heq hgr]
          next e heq => simp at h

/-- Applying any sequence of commit operations to a tree keeps "every node
with children is used" — with no assumption at all on the operations. -/
theorem node.applyOps_goodUsed :
    ∀ (ops : List InsertOp) (t : node),
      t.goodUsedB = true → (node.applyOps t ops).goodUsedB = true := by
  intro ops
  induction ops with
  | nil => intro t hg; exact hg
  | cons op ops ih =>
      intro t hg
      show (node.applyOps _ ops).goodUsedB = true
      apply ih
      rcases hok : node.InsertAt insertFuel t op.1 op.2 with e | ⟨t', rr⟩
      · simpa [hok] using hg
      · have := node.InsertAt_goodUsed op.1 insertFuel t t' op.2 rr hok hg
        simpa [hok] using this

/-- Any sequence of commit operations with non-negative sizes preserves the
tree invariants and the root rectangle. -/
theorem node.applyOps_inv :
    ∀ (ops : List InsertOp) (t : node),
      t.goodUsedB = true → t.propAllB = true → t.subRectsB = true → t.childrenPartition →
      (∀ op ∈ ops, 0 ≤ op.2.X ∧ 0 ≤ op.2.Y) →
      (node.applyOps t ops).goodUsedB = true ∧ (node.applyOps t ops).propAllB = true ∧
        (node.applyOps t ops).subRectsB = true ∧ (node.applyOps t ops).childrenPartition ∧
        (node.applyOps t ops).Rect = t.Rect := by
  intro ops
  induction ops with
  | nil => intro t hg hpa hsr hcp _; exact ⟨hg, hpa, hsr, hcp, rfl⟩
  | cons op ops ih =>
      intro t hg hpa hsr hcp hsz
      have hop := hsz op (List.mem_cons_self _ _)
      have hops : ∀ o ∈ ops, 0 ≤ o.2.X ∧ 0 ≤ o.2.Y :=
        fun o ho => hsz o (List.mem_cons_of_mem _ ho)
      rcases hok : node.InsertAt insertFuel t op.1 op.2 with e | ⟨t', rr⟩
      · have hstep : node.applyOps t (op :: ops) = node.applyOps t ops := by
          simp [node.applyOps, hok]
        rw [hstep]
        exact ih t hg hpa hsr hcp hops
      · obtain ⟨iRect, -, iGood, iProp, iSub, iCP, -, -, -⟩ :=
          node.InsertAt_spec op.1 insertFuel t t' op.2 rr hok hg hpa hsr hcp hop.1 hop.2
        have hstep : node.applyOps t (op :: ops) = node.applyOps t' ops := by
          simp [node.applyOps, hok]
        rw [hstep]
        obtain ⟨a, b, c, d, e⟩ := ih t' iGood iProp iSub iCP hops
        exact ⟨a, b, c, d, e.trans iRect⟩

/-- All nodes of a tree (the tree itself and, recursively, its children). -/
def node.subtrees : node → List node
  | .leaf r u => [.leaf r u]
  | .internal r u l rt => .internal r u l rt :: (l.subtrees ++ rt.subtrees)

theorem node.goodUsedB_subtrees :
    ∀ (t : node), t.goodUsedB = true →
      ∀ s ∈ t.subtrees, s.hasChildren = true → s.Used = true := by
  intro t
  induction t with
  | leaf r u =>
      intro _ s hs hc
      simp only [node.subtrees, List.mem_singleton] at hs
      subst hs
      simp [node.hasChildren] at hc
  | internal r u l rt ihl ihr =>
      intro h s hs hc
      simp only [node.goodUsedB, Bool.and_eq_true] at h
      simp only [node.subtrees, List.mem_cons, List.mem_append] at hs
      rcases hs with rfl | hs | hs
      · simpa [node.Used] using h.1.1
      · exact ihl h.1.2 s hs hc
      · exact ihr h.2 s hs hc

/-- The returned rectangle of a successful `Insert` sits at the node's min
corner and has exactly the requested size (no reachability assumptions). -/
theorem node.Insert_ret :
    ∀ (fuel : Nat) (n n' : node) (size : Point) (rr : Rectangle),
      node.Insert fuel n size = .ok (n', rr) →
      n.Rect.Proper → 0 ≤ size.X → 0 ≤ size.Y →
      rr = ⟨n.Rect.Min, ⟨n.Rect.Min.X + size.X, n.Rect.Min.Y + size.Y⟩⟩ := by
  intro fuel
  induction fuel with
  | zero => intro n n' size rr h _ _ _; simp [node.Insert] at h
  | succ fuel ih =>
    intro n n' size rr h hp hx hy
    simp only [node.Insert, Rectangle.Size, Point.Sub, Rectangle.Dx, Rectangle.Dy] at h
    split at h
    · simp at h
    next hu =>
    split at h
    · simp at h
    next hds =>
    split at h
    · next hex =>
      simp only [Except.ok.injEq, Prod.mk.injEq] at h
      obtain ⟨-, hrr⟩ := h
      subst hrr
      have h1 : n.Rect.Max.X = n.Rect.Min.X + size.X := by omega
      have h2 : n.Rect.Max.Y = n.Rect.Min.Y + size.Y := by omega
      calc n.Rect = ⟨n.Rect.Min, ⟨n.Rect.Max.X, n.Rect.Max.Y⟩⟩ := rfl
        _ = ⟨n.Rect.Min, ⟨n.Rect.Min.X + size.X, n.Rect.Min.Y + size.Y⟩⟩ := by rw [h1, h2]
    next hex =>
    split at h
    · next hge =>
      rw [imageRect_of_le (by omega) (by exact hp.2)] at h
      split at h
      next l' r1 heq =>
        simp only [Except.ok.injEq, Prod.mk.injEq] at h
        obtain ⟨-, hrr⟩ := h
        subst hrr
        exact ih (.leaf ⟨⟨n.Rect.Min.X, n.Rect.Min.Y⟩, ⟨n.Rect.Min.X + size.X, n.Rect.Max.Y⟩⟩ false)
          l' size r1 heq ⟨(by omega : n.Rect.Min.X ≤ n.Rect.Min.X + size.X), hp.2⟩ hx hy
      next e heq => simp at h
    · next hge =>
      rw [imageRect_of_le (by exact hp.1) (by omega)] at h
      split at h
      next l' r1 heq =>
        simp only [Except.ok.injEq, Prod.mk.injEq] at h
        obtain ⟨-, hrr⟩ := h
        subst hrr
        exact ih (.leaf ⟨⟨n.Rect.Min.X, n.Rect.Min.Y⟩, ⟨n.Rect.Max.X, n.Rect.Min.Y + size.Y⟩⟩ false)
          l' size r1 heq ⟨hp.1, (by omega : n.Rect.Min.Y ≤ n.Rect.Min.Y + size.Y)⟩ hx hy
      next e heq => simp at h

/-! ## Claims C1, C2, C5 -/

/-- C1, counterexample: the claim "every node whose Used flag is true has no
children" is false on the code.  Starting from a fresh 3×2 root leaf, a single
commit of a 1×1 size yields a root that is marked used *and* has two children,
because `Insert` sets `n.Used = true` before splitting. -/
theorem c1_counterexample :
    (node.applyOps (.leaf (imageRect 0 0 3 2) false) [([], ⟨1, 1⟩)]).Used = true ∧
    (node.applyOps (.leaf (imageRect 0 0 3 2) false) [([], ⟨1, 1⟩)]).hasChildren = true := by
  constructor <;> decide

/-- C1 (amended): for every packing tree reachable from a fresh root by any
sequence of commit (`Insert`) operations, every node that has children is
itself marked used; equivalently, every node whose Used flag is false is a
childless leaf.  (The amendment swaps the direction of the original claim:
`Insert` marks a node used before splitting it, so internal nodes are always
used; the `Used` flag on a childless leaf is what marks it occupied.) -/
theorem c1_children_implies_used (ops : List InsertOp) (r0 : Rectangle) :
    ∀ s ∈ (node.applyOps (.leaf r0 false) ops).subtrees,
      s.hasChildren = true → s.Used = true :=
  node.goodUsedB_subtrees _ (node.applyOps_goodUsed ops _ rfl)

/-- Witness for the amended C1 at a concrete run: after one commit into a
fresh 3×2 root the root itself is a subtree with children, and the theorem
concludes it is marked used. -/
theorem c1_children_implies_used_witness :
    (node.applyOps (.leaf (imageRect 0 0 3 2) false) [([], ⟨1, 1⟩)]) ∈
      (node.applyOps (.leaf (imageRect 0 0 3 2) false) [([], ⟨1, 1⟩)]).subtrees ∧
    (node.applyOps (.leaf (imageRect 0 0 3 2) false) [([], ⟨1, 1⟩)]).hasChildren = true ∧
    (node.applyOps (.leaf (imageRect 0 0 3 2) false) [([], ⟨1, 1⟩)]).Used = true :=
  ⟨by decide, by decide,
    c1_children_implies_used [([], ⟨1, 1⟩)] (imageRect 0 0 3 2) _ (by decide) (by decide)⟩

/-- C2: partition invariant.  For every tree reachable from a single-leaf
root by any sequence of commit (`Insert`) operations (with genuine,
non-negative sizes), the leaf rectangles are pairwise non-overlapping and
their union is exactly the root's rectangle (`leafPartition` states both at
once: every pixel of the root rectangle lies in exactly one leaf rectangle,
every pixel outside it in none); the root rectangle is unchanged; and at
every split node the two children exactly reconstitute their parent with no
gap or overlap (`childrenPartition`). -/
theorem c2_partition_invariant (ops : List InsertOp) (x0 y0 x1 y1 : Int)
    (hops : ∀ op ∈ ops, 0 ≤ op.2.X ∧ 0 ≤ op.2.Y) :
    (node.applyOps (.leaf (imageRect x0 y0 x1 y1) false) ops).leafPartition ∧
    (node.applyOps (.leaf (imageRect x0 y0 x1 y1) false) ops).Rect = imageRect x0 y0 x1 y1 ∧
    (node.applyOps (.leaf (imageRect x0 y0 x1 y1) false) ops).childrenPartition := by
  obtain ⟨hg, hpa, hsr, hcp, hrect⟩ :=
    node.applyOps_inv ops (.leaf (imageRect x0 y0 x1 y1) false) rfl
      (by simp [node.propAllB, imageRect_proper]) rfl trivial hops
  refine ⟨fun x y => ?_, hrect, hcp⟩
  rw [node.countLeaves_of_childrenPartition _ hcp x y]

theorem c2_partition_invariant_witness :
    (node.applyOps (.leaf (imageRect 0 0 3 2) false) [([], ⟨1, 1⟩)]).leafPartition := by
  exact (c2_partition_invariant [([], ⟨1, 1⟩)] 0 0 3 2 (by decide)).1

/-- C5: commit split rule.  For an unused node whose rectangle is at least
the requested (non-negative) size in both dimensions:
(a) the commit succeeds and the returned rectangle always has exactly the
requested size with its min corner at the node's rectangle's min corner;
(b) if the rectangle exactly equals the size, the node is marked used and its
rectangle is returned unchanged;
(c) otherwise, when width-slack ≥ height-slack the node splits vertically —
the left child takes the full requested width from the node's left edge
spanning the full height, the right child takes the remaining width — and
the commit recurses into the left child (the returned rectangle is the
recursive result);
(d) otherwise it splits horizontally — the left child takes the full
requested height from the top spanning the full width, the right child the
remaining height — recursing into the left child. -/
theorem c5_commit_split_rule (fuel : Nat) (n : node) (size : Point)
    (hu : n.Used = false) (hp : n.Rect.Proper) (hx : 0 ≤ size.X) (hy : 0 ≤ size.Y)
    (hdx : size.X ≤ n.Rect.Dx) (hdy : size.Y ≤ n.Rect.Dy) :
    (∃ n' rr, node.Insert (fuel + insertFuel) n size = .ok (n', rr) ∧
        rr = ⟨n.Rect.Min, ⟨n.Rect.Min.X + size.X, n.Rect.Min.Y + size.Y⟩⟩) ∧
    (size.X = n.Rect.Dx ∧ size.Y = n.Rect.Dy →
        node.Insert (fuel + 1) n size = .ok (n.markUsed, n.Rect)) ∧
    (¬(size.X = n.Rect.Dx ∧ size.Y = n.Rect.Dy) →
        n.Rect.Dx - size.X ≥ n.Rect.Dy - size.Y →
        ∀ n' rr, node.Insert (fuel + 1) n size = .ok (n', rr) →
          ∃ L, node.Insert fuel
              (.leaf ⟨n.Rect.Min, ⟨n.Rect.Min.X + size.X, n.Rect.Max.Y⟩⟩ false) size
              = .ok (L, rr) ∧
            n' = .internal n.Rect true L
              (.leaf ⟨⟨n.Rect.Min.X + size.X, n.Rect.Min.Y⟩, n.Rect.Max⟩ false)) ∧
    (¬(size.X = n.Rect.Dx ∧ size.Y = n.Rect.Dy) →
        ¬(n.Rect.Dx - size.X ≥ n.Rect.Dy - size.Y) →
        ∀ n' rr, node.Insert (fuel + 1) n size = .ok (n', rr) →
          ∃ L, node.Insert fuel
              (.leaf ⟨n.Rect.Min, ⟨n.Rect.Max.X, n.Rect.Min.Y + size.Y⟩⟩ false) size
              = .ok (L, rr) ∧
            n' = .internal n.Rect true L
              (.leaf ⟨⟨n.Rect.Min.X, n.Rect.Min.Y + size.Y⟩, n.Rect.Max⟩ false)) := by
  have hp1 : n.Rect.Min.X ≤ n.Rect.Max.X := hp.1
  have hp2 : n.Rect.Min.Y ≤ n.Rect.Max.Y := hp.2
  have hdx' : size.X ≤ n.Rect.Max.X - n.Rect.Min.X := hdx
  have hdy' : size.Y ≤ n.Rect.Max.Y - n.Rect.Min.Y := hdy
  refine ⟨?_, ?_, ?_, ?_⟩
  · obtain ⟨n', rr, hok⟩ := node.Insert_isOk (fuel + insertFuel) n size hu hp hx hy hdx hdy
      (by simp only [insertFuel]; split_ifs <;> omega)
    exact ⟨n', rr, hok, node.Insert_ret _ _ _ _ _ hok hp hx hy⟩
  · intro hex
    have hex1 : size.X = n.Rect.Max.X - n.Rect.Min.X := hex.1
    have hex2 : size.Y = n.Rect.Max.Y - n.Rect.Min.Y := hex.2
    simp only [node.Insert, Rectangle.Size, Point.Sub, Rectangle.Dx, Rectangle.Dy]
    rw [if_neg (by simp [hu]), if_neg (by omega), if_pos (by omega)]
  · intro hex hge n' rr h
    have hge' : n.Rect.Max.X - n.Rect.Min.X - size.X ≥ n.Rect.Max.Y - n.Rect.Min.Y - size.Y := hge
    have hex' : ¬(size.X = n.Rect.Max.X - n.Rect.Min.X ∧ size.Y = n.Rect.Max.Y - n.Rect.Min.Y) := hex
    simp only [node.Insert, Rectangle.Size, Point.Sub, Rectangle.Dx, Rectangle.Dy] at h
    rw [if_neg (by simp [hu]), if_neg (by omega), if_neg (by omega), if_pos (by omega)] at h
    rw [imageRect_of_le (by omega) (by omega), imageRect_of_le (by omega) (by omega)] at h
    split at h
    next l' r1 heq =>
      simp only [Except.ok.injEq, Prod.mk.injEq] at h
      obtain ⟨hn', hrr⟩ := h
      subst hrr
      exact ⟨l', heq, hn'.symm⟩
    next e heq => simp at h
  · intro hex hge n' rr h
    have hge' : ¬(n.Rect.Max.X - n.Rect.Min.X - size.X ≥ n.Rect.Max.Y - n.Rect.Min.Y - size.Y) := hge
    have hex' : ¬(size.X = n.Rect.Max.X - n.Rect.Min.X ∧ size.Y = n.Rect.Max.Y - n.Rect.Min.Y) := hex
    simp only [node.Insert, Rectangle.Size, Point.Sub, Rectangle.Dx, Rectangle.Dy] at h
    rw [if_neg (by simp [hu]), if_neg (by omega), if_neg (by omega), if_neg (by omega)] at h
    rw [imageRect_of_le (by omega) (by omega), imageRect_of_le (by omega) (by omega)] at h
    split at h
    next l' r1 heq =>
      simp only [Except.ok.injEq, Prod.mk.injEq] at h
      obtain ⟨hn', hrr⟩ := h
      subst hrr
      exact ⟨l', heq, hn'.symm⟩
    next e heq => simp at h

theorem c5_commit_split_rule_witness :
    (node.leaf (imageRect 1 1 6 6) false).Used = false ∧
    (∃ n' rr, node.Insert (0 + insertFuel) (.leaf (imageRect 1 1 6 6) false) ⟨2, 2⟩
        = .ok (n', rr) ∧
      rr = ⟨(node.leaf (imageRect 1 1 6 6) false).Rect.Min,
        ⟨(node.leaf (imageRect 1 1 6 6) false).Rect.Min.X + 2,
         (node.leaf (imageRect 1 1 6 6) false).Rect.Min.Y + 2⟩⟩) := by
  refine ⟨by decide, ?_⟩
  exact (c5_commit_split_rule 0 (.leaf (imageRect 1 1 6 6) false) ⟨2, 2⟩ (by decide)
    (by decide) (by decide) (by decide) (by decide) (by decide)).1

/-! ## Candidate search and the greedy round (`FindInsertCandidates`,
`PackImages`) -/

/-- Go's `nodeCandidate`: a candidate node (rendered as the path to it) and
its score. -/
structure nodeCandidate where
  Candidate : NodePath
  Score : Int
deriving DecidableEq

/-- Go's `node.FindInsertCandidates`.  The original streams candidates into a
channel in DFS order (left subtree before right); the channel is fully
drained before the next sprite is considered, so it is rendered as the list
of candidates in send order. -/
def node.FindInsertCandidates : node → Point → List nodeCandidate
  | .leaf r u, size =>
      if size.X ≤ r.Dx ∧ size.Y ≤ r.Dy then
        if u then []
        else
          if (r.Size.Sub size).X ≥ (r.Size.Sub size).Y then [⟨[], (r.Size.Sub size).Y⟩]
          else [⟨[], (r.Size.Sub size).X⟩]
      else []
  | .internal r _ l rt, size =>
      if size.X ≤ r.Dx ∧ size.Y ≤ r.Dy then
        (l.FindInsertCandidates size).map (fun c => ⟨false :: c.Candidate, c.Score⟩) ++
          (rt.FindInsertCandidates size).map (fun c => ⟨true :: c.Candidate, c.Score⟩)
      else []

/-- All leaves of the tree, with the paths that reach them, in the same DFS
order `FindInsertCandidates` uses. -/
def node.leavesWithPaths : node → List (NodePath × Rectangle × Bool)
  | .leaf r u => [([], r, u)]
  | .internal _ _ l rt =>
      (l.leavesWithPaths).map (fun e => (false :: e.1, e.2)) ++
        (rt.leavesWithPaths).map (fun e => (true :: e.1, e.2))

theorem node.leavesWithPaths_dims :
    ∀ (t : node), t.subRectsB = true →
      ∀ e ∈ t.leavesWithPaths, e.2.1.Dx ≤ t.Rect.Dx ∧ e.2.1.Dy ≤ t.Rect.Dy := by
  intro t
  induction t with
  | leaf r u =>
      intro _ e he
      simp only [node.leavesWithPaths, List.mem_singleton] at he
      subst he
      exact ⟨le_refl _, le_refl _⟩
  | internal r u l rt ihl ihr =>
      intro hs e he
      simp only [node.subRectsB, Bool.and_eq_true, decide_eq_true_eq] at hs
      obtain ⟨⟨⟨hsl, hsr⟩, hls⟩, hrs⟩ := hs
      simp only [node.leavesWithPaths, List.mem_append, List.mem_map] at he
      have hrecl : l.Rect.Dx ≤ r.Dx ∧ l.Rect.Dy ≤ r.Dy := by
        obtain ⟨a, b, c, d⟩ := hsl
        constructor <;> simp only [Rectangle.Dx, Rectangle.Dy] <;> omega
      have hrecr : rt.Rect.Dx ≤ r.Dx ∧ rt.Rect.Dy ≤ r.Dy := by
        obtain ⟨a, b, c, d⟩ := hsr
        constructor <;> simp only [Rectangle.Dx, Rectangle.Dy] <;> omega
      rcases he with ⟨e', he', rfl⟩ | ⟨e', he', rfl⟩
      · have := ihl hls e' he'
        exact ⟨le_trans this.1 hrecl.1, le_trans this.2 hrecl.2⟩
      · have := ihr hrs e' he'
        exact ⟨le_trans this.1 hrecr.1, le_trans this.2 hrecr.2⟩

/-- The candidate enumeration is exactly the unused leaves large enough for
the size, in DFS order, each scored with the smaller leftover-slack
dimension.  (The tree-level pruning on internal nodes loses nothing because
children's rectangles fit inside their parents'.) -/
theorem node.FindInsertCandidates_eq :
    ∀ (t : node) (size : Point), t.subRectsB = true →
      t.FindInsertCandidates size =
        (t.leavesWithPaths.filter fun e =>
            !e.2.2 && decide (size.X ≤ e.2.1.Dx) && decide (size.Y ≤ e.2.1.Dy)).map
          (fun e => ⟨e.1, min (e.2.1.Dx - size.X) (e.2.1.Dy - size.Y)⟩) := by
  intro t
  induction t with
  | leaf r u =>
      intro size _
      cases u with
      | true =>
          simp [node.FindInsertCandidates, node.leavesWithPaths, List.filter_singleton]
      | false =>
          simp only [node.FindInsertCandidates, node.leavesWithPaths, Rectangle.Size, Point.Sub,
            List.filter_singleton, Bool.not_false, Bool.true_and, Bool.and_eq_true,
            decide_eq_true_eq, Bool.cond_eq_ite, if_true, List.map_cons, List.map_nil]
          split_ifs with h1 h2 h3 <;>
            first
            | rfl
            | (simp only [List.map_cons, List.map_nil, List.cons.injEq,
                 nodeCandidate.mk.injEq, true_and, and_true]
               omega)
            | omega
            | tauto
  | internal r u l rt ihl ihr =>
      intro size hs
      have hs' := hs
      simp only [node.subRectsB, Bool.and_eq_true, decide_eq_true_eq] at hs'
      obtain ⟨⟨⟨hsl, hsr⟩, hls⟩, hrs⟩ := hs'
      by_cases hfit : size.X ≤ r.Dx ∧ size.Y ≤ r.Dy
      · simp only [node.FindInsertCandidates, node.leavesWithPaths]
        rw [if_pos hfit, ihl size hls, ihr size hrs]
        simp only [List.filter_append, List.filter_map, List.map_append, List.map_map]
        rfl
      · have hnil : ((node.internal r u l rt).leavesWithPaths.filter fun e =>
            !e.2.2 && decide (size.X ≤ e.2.1.Dx) && decide (size.Y ≤ e.2.1.Dy)) = [] := by
          rw [List.filter_eq_nil_iff]
          intro e he
          have hd := node.leavesWithPaths_dims (.internal r u l rt) hs e he
          simp only [node.Rect] at hd
          simp only [Bool.and_eq_true, Bool.not_eq_true', decide_eq_true_eq, not_and]
          intro ha hb
          exact absurd ⟨le_trans ha.2 hd.1, le_trans hb hd.2⟩ hfit
        rw [hnil, List.map_nil]
        simp only [node.FindInsertCandidates]
        rw [if_neg hfit]

/-- One step of the packer's running-best accumulation: Go's
`if bestImage < 0 || candidate.Score < bestCandidate.Score { ... }` —
`none` is `bestImage < 0`, and a *strict* comparison keeps the earlier pair
on ties. -/
def pickStep (best : Option (Nat × nodeCandidate)) (p : Nat × nodeCandidate) :
    Option (Nat × nodeCandidate) :=
  match best with
  | none => some p
  | some b => if p.2.Score < b.2.Score then some p else some b

/-- The single best (work-position, candidate) pair of a round, accumulated
over the flattened (sprite, candidate) stream in iteration order. -/
def pickBest (l : List (Nat × nodeCandidate)) : Option (Nat × nodeCandidate) :=
  l.foldl pickStep none

theorem List.find?_congr_mem {α : Type _} :
    ∀ (l : List α) (p q : α → Bool), (∀ a ∈ l, p a = q a) → l.find? p = l.find? q := by
  intro l
  induction l with
  | nil => intro p q _; rfl
  | cons a l ih =>
      intro p q h
      have ha := h a (List.mem_cons_self _ _)
      simp only [List.find?_cons]
      rw [ha]
      cases q a
      · exact ih p q fun b hb => h b (List.mem_cons_of_mem _ hb)
      · rfl

theorem pickBest_from :
    ∀ (xs : List (Nat × nodeCandidate)) (b : Nat × nodeCandidate),
      xs.foldl pickStep (some b) =
        (b :: xs).find? fun p => (b :: xs).all fun q => p.2.Score ≤ q.2.Score := by
  intro xs
  induction xs with
  | nil =>
      intro b
      simp [List.find?_cons, List.all_cons]
  | cons x xs ih =>
      intro b
      simp only [List.foldl_cons]
      by_cases hlt : x.2.Score < b.2.Score
      · have hstep : pickStep (some b) x = some x := by simp [pickStep, hlt]
        rw [hstep, ih x]
        have hbfail :
            ¬((fun p => (b :: x :: xs).all fun q => decide (p.2.Score ≤ q.2.Score)) b = true) := by
          simp only [List.all_cons, Bool.and_eq_true, decide_eq_true_eq]
          rintro ⟨-, h2, -⟩
          omega
        rw [@List.find?_cons_of_neg _
          (fun p => (b :: x :: xs).all fun q => decide (p.2.Score ≤ q.2.Score)) b
          (x :: xs) hbfail]
        apply List.find?_congr_mem
        intro a ha
        simp only [List.all_cons]
        rcases le_or_lt a.2.Score x.2.Score with hax | hax
        · have hab : a.2.Score ≤ b.2.Score := by omega
          simp [hax, hab]
        · have hax' : ¬ a.2.Score ≤ x.2.Score := by omega
          simp [hax']
      · have hstep : pickStep (some b) x = some b := by simp [pickStep, hlt]
        rw [hstep, ih b]
        by_cases hbmin : ∀ q ∈ xs, b.2.Score ≤ q.2.Score
        · have hpos1 :
              (fun p => (b :: xs).all fun q => decide (p.2.Score ≤ q.2.Score)) b = true := by
            simp only [List.all_cons, Bool.and_eq_true, decide_eq_true_eq, List.all_eq_true]
            exact ⟨le_refl _, hbmin⟩
          have hpos2 :
              (fun p => (b :: x :: xs).all fun q => decide (p.2.Score ≤ q.2.Score)) b = true := by
            simp only [List.all_cons, Bool.and_eq_true, decide_eq_true_eq, List.all_eq_true]
            exact ⟨le_refl _, by omega, hbmin⟩
          rw [@List.find?_cons_of_pos _
            (fun p => (b :: xs).all fun q => decide (p.2.Score ≤ q.2.Score)) b xs hpos1]
          rw [@List.find?_cons_of_pos _
            (fun p => (b :: x :: xs).all fun q => decide (p.2.Score ≤ q.2.Score)) b
            (x :: xs) hpos2]
        · push_neg at hbmin
          obtain ⟨w, hw, hwlt⟩ := hbmin
          have hneg1 :
              ¬((fun p => (b :: xs).all fun q => decide (p.2.Score ≤ q.2.Score)) b = true) := by
            simp only [List.all_cons, Bool.and_eq_true, decide_eq_true_eq, List.all_eq_true]
            rintro ⟨-, hall⟩
            exact absurd (hall w hw) (by omega)
          have hneg2 :
              ¬((fun p => (b :: x :: xs).all fun q => decide (p.2.Score ≤ q.2.Score)) b
                = true) := by
            simp only [List.all_cons, Bool.and_eq_true, decide_eq_true_eq, List.all_eq_true]
            rintro ⟨-, -, hall⟩
            exact absurd (hall w hw) (by omega)
          have hneg3 :
              ¬((fun p => (b :: x :: xs).all fun q => decide (p.2.Score ≤ q.2.Score)) x
                = true) := by
            simp only [List.all_cons, Bool.and_eq_true, decide_eq_true_eq, List.all_eq_true]
            rintro ⟨-, -, hall⟩
            exact absurd (hall w hw) (by omega)
          rw [@List.find?_cons_of_neg _
            (fun p => (b :: xs).all fun q => decide (p.2.Score ≤ q.2.Score)) b xs hneg1]
          rw [@List.find?_cons_of_neg _
            (fun p => (b :: x :: xs).all fun q => decide (p.2.Score ≤ q.2.Score)) b
            (x :: xs) hneg2]
          rw [@List.find?_cons_of_neg _
            (fun p => (b :: x :: xs).all fun q => decide (p.2.Score ≤ q.2.Score)) x
            xs hneg3]
          apply List.find?_congr_mem
          intro a ha
          simp only [List.all_cons]
          rcases le_or_lt a.2.Score b.2.Score with hab | hab
          · have hax : a.2.Score ≤ x.2.Score := by omega
            simp [hab, hax]
          · have hab' : ¬ a.2.Score ≤ b.2.Score := by omega
            simp [hab']

/-- `pickBest` returns exactly the first element of the stream whose score is
less than or equal to every score in the stream — i.e. the lowest score wins
and ties go to the pair encountered first in iteration order. -/
theorem pickBest_eq_find? (l : List (Nat × nodeCandidate)) :
    pickBest l = l.find? fun p => l.all fun q => p.2.Score ≤ q.2.Score := by
  cases l with
  | nil => rfl
  | cons b xs =>
      show xs.foldl pickStep (pickStep none b) = _
      rw [show pickStep none b = some b from rfl]
      exact pickBest_from xs b

/-- Go's `AtlasImage`, restricted to what packing reads and writes: the
trimmed image's bounds size (`Image.Bounds().Dx()/Dy()`) and the committed
position `AtlasPos` (`Path`, `OrgBounds` and the pixel data play no role in
`PackImages`). -/
structure AtlasImage where
  width : Int
  height : Int
  AtlasPos : Point
deriving DecidableEq

instance : Inhabited AtlasImage := ⟨⟨0, 0, ⟨0, 0⟩⟩⟩

/-- The size `PackImages` searches and commits with:
`images[i].Image.Bounds().Size().Add(image.Pt(1, 1))` — the trimmed size plus
one unit on each axis. -/
def paddedSize (img : AtlasImage) : Point := ⟨img.width + 1, img.height + 1⟩

/-- The flattened stream of (work-list position, candidate) pairs of one
round of `PackImages`: for each still-unplaced image, in work-list order, all
of the tree's candidates for its padded size, in the candidate channel's
order. -/
def candidatePairs (root : node) (imgs : List AtlasImage) (work : List Nat) :
    List (Nat × nodeCandidate) :=
  work.enum.flatMap fun pi =>
    (root.FindInsertCandidates (paddedSize (imgs.getD pi.2 default))).map fun c => (pi.1, c)

/-- C3: greedy best-fit selection.  In a round of `PackImages` over a tree
satisfying the reachable-tree containment invariant:
(a) candidate enumeration for a sprite yields exactly the unused leaves whose
rectangle is at least the sprite's padded size in both dimensions, each
scored with the smaller of the two leftover-slack dimensions;
(b) the accumulation over all still-unplaced sprites selects exactly the
first (sprite, candidate) pair, in iteration order, whose score is
less-or-equal to every score in the round — i.e. the lowest score, ties
broken in favour of the pair encountered first. -/
theorem c3_greedy_best_fit (t : node) (size : Point) (imgs : List AtlasImage)
    (work : List Nat) (hsr : t.subRectsB = true) :
    t.FindInsertCandidates size =
      (t.leavesWithPaths.filter fun e =>
          !e.2.2 && decide (size.X ≤ e.2.1.Dx) && decide (size.Y ≤ e.2.1.Dy)).map
        (fun e => ⟨e.1, min (e.2.1.Dx - size.X) (e.2.1.Dy - size.Y)⟩) ∧
    pickBest (candidatePairs t imgs work) =
      (candidatePairs t imgs work).find? fun p =>
        (candidatePairs t imgs work).all fun q => p.2.Score ≤ q.2.Score :=
  ⟨node.FindInsertCandidates_eq t size hsr, pickBest_eq_find? _⟩

theorem c3_greedy_best_fit_witness :
    ((node.leaf (imageRect 1 1 6 6) false).subRectsB = true) ∧
    ((node.leaf (imageRect 1 1 6 6) false).FindInsertCandidates ⟨2, 2⟩ =
      [⟨[], 3⟩] ∧
    pickBest (candidatePairs (.leaf (imageRect 1 1 6 6) false)
        [⟨1, 1, ⟨0, 0⟩⟩, ⟨2, 3, ⟨0, 0⟩⟩] [0, 1]) = some (1, ⟨[], 1⟩)) := by
  constructor
  · decide
  · have h := c3_greedy_best_fit (.leaf (imageRect 1 1 6 6) false) ⟨2, 2⟩
      [⟨1, 1, ⟨0, 0⟩⟩, ⟨2, 3, ⟨0, 0⟩⟩] [0, 1] (by decide)
    constructor
    · rw [h.1]; decide
    · rw [h.2]; decide

/-- Go's removal of the chosen image from the work list:
`images[bestImage] = images[len(images)-1]; images = images[:len(images)-1]`. -/
def removeSwap (l : List Nat) (i : Nat) : List Nat :=
  (l.set i (l.getLast?.getD 0)).dropLast

theorem removeSwap_length {l : List Nat} (_h : l ≠ []) (i : Nat) :
    (removeSwap l i).length = l.length - 1 := by
  simp [removeSwap]

theorem removeSwap_getElem {l : List Nat} {i k : Nat} (hne : l ≠ [])
    (hk : k < (removeSwap l i).length) :
    getElem (removeSwap l i) k hk =
      if i = k then getElem l (l.length - 1) (by
        have := List.length_pos.mpr hne
        omega)
      else getElem l k (by rw [removeSwap_length hne] at hk; omega) := by
  have hlast : l.getLast?.getD 0 = getElem l (l.length - 1) (by
      have := List.length_pos.mpr hne
      omega) := by
    rw [List.getLast?_eq_getElem?, List.getElem?_eq_getElem]
    rfl
  unfold removeSwap
  rw [List.getElem_dropLast, List.getElem_set]
  split <;> simp [hlast]

theorem removeSwap_subset {l : List Nat} {i : Nat} {x : Nat}
    (hx : x ∈ removeSwap l i) : x ∈ l := by
  rcases Decidable.em (l = []) with rfl | hne
  · simp [removeSwap] at hx
  · rw [List.mem_iff_getElem] at hx
    obtain ⟨k, hk, hkx⟩ := hx
    rw [removeSwap_getElem hne] at hkx
    split at hkx
    · exact hkx ▸ List.getElem_mem _
    · exact hkx ▸ List.getElem_mem _

theorem removeSwap_nodup {l : List Nat} (hn : l.Nodup) (i : Nat) :
    (removeSwap l i).Nodup := by
  rcases Decidable.em (l = []) with rfl | hne
  · simp [removeSwap]
  rw [List.Nodup, List.pairwise_iff_getElem] at hn ⊢
  intro a b ha hb hab
  rw [removeSwap_getElem hne, removeSwap_getElem hne]
  have hlen := removeSwap_length hne i
  rw [hlen] at ha hb
  split <;> split
  · omega
  · next hia hib => exact (hn _ _ _ _ (by omega)).symm
  · next hia hib => exact hn _ _ _ _ (by omega)
  · next hia hib => exact hn _ _ _ _ (by omega)

theorem removeSwap_not_mem {l : List Nat} (hn : l.Nodup) {i : Nat} (hi : i < l.length) :
    l.getD i 0 ∉ removeSwap l i := by
  have hne : l ≠ [] := by
    intro h
    subst h
    simp at hi
  intro hmem
  rw [List.mem_iff_getElem] at hmem
  obtain ⟨k, hk, hkx⟩ := hmem
  rw [removeSwap_getElem hne] at hkx
  have hlen := removeSwap_length hne i
  rw [hlen] at hk
  have hgetD : l.getD i 0 = getElem l i hi := List.getD_eq_getElem l 0 hi
  rw [List.Nodup, List.pairwise_iff_getElem] at hn
  split at hkx
  · next hik =>
    subst hik
    rw [hgetD] at hkx
    exact hn i (l.length - 1) hi (by omega) (by omega) hkx.symm
  · next hik =>
    rw [hgetD] at hkx
    rcases Nat.lt_or_ge k i with hki | hki
    · exact hn k i (by omega) hi (by omega) hkx
    · exact hn i k hi (by omega) (by omega) hkx.symm

theorem removeSwap_mem_of_ne {l : List Nat} (hn : l.Nodup) {i : Nat} (hi : i < l.length)
    {x : Nat} (hx : x ∈ l) (hne : x ≠ l.getD i 0) : x ∈ removeSwap l i := by
  have hnil : l ≠ [] := by
    intro h
    subst h
    simp at hx
  rw [List.mem_iff_getElem] at hx
  obtain ⟨k, hk, hkx⟩ := hx
  have hgetD : l.getD i 0 = getElem l i hi := List.getD_eq_getElem l 0 hi
  have hki : k ≠ i := by
    intro h
    subst h
    exact hne (hkx ▸ hgetD.symm)
  rw [List.mem_iff_getElem]
  rcases Decidable.em (k = l.length - 1) with hkl | hkl
  · -- x is the last element: it now sits at position i
    have hil : i < l.length - 1 := by omega
    refine ⟨i, by rw [removeSwap_length hnil]; omega, ?_⟩
    rw [removeSwap_getElem hnil, if_pos rfl]
    subst hkl
    exact hkx
  · refine ⟨k, by rw [removeSwap_length hnil]; omega, ?_⟩
    rw [removeSwap_getElem hnil, if_neg (by omega)]
    exact hkx

/-- Go's `images[bestImage].AtlasPos = r.Min` — record the placement on the
image the chosen work entry points at. -/
def setPos (imgs : List AtlasImage) (i : Nat) (p : Point) : List AtlasImage :=
  imgs.set i { imgs.getD i default with AtlasPos := p }

theorem setPos_length (imgs : List AtlasImage) (i : Nat) (p : Point) :
    (setPos imgs i p).length = imgs.length := by
  simp [setPos]

theorem setPos_getD_other {imgs : List AtlasImage} {i j : Nat} {p : Point} (h : i ≠ j) :
    (setPos imgs i p).getD j default = imgs.getD j default := by
  rcases Decidable.em (j < imgs.length) with hj | hj
  · rw [List.getD_eq_getElem _ _ (by simpa [setPos] using hj), List.getD_eq_getElem _ _ hj]
    simp only [setPos]
    rw [List.getElem_set, if_neg h]
  · rw [List.getD_eq_default _ _ (by simpa [setPos] using (by omega : imgs.length ≤ j)),
      List.getD_eq_default _ _ (by omega)]

theorem setPos_getD_same {imgs : List AtlasImage} {i : Nat} {p : Point}
    (h : i < imgs.length) :
    (setPos imgs i p).getD i default = { imgs.getD i default with AtlasPos := p } := by
  rw [List.getD_eq_getElem _ _ (by simpa [setPos] using h)]
  simp only [setPos]
  rw [List.getElem_set, if_pos rfl]

theorem setPos_width (imgs : List AtlasImage) (i j : Nat) (p : Point) :
    ((setPos imgs i p).getD j default).width = (imgs.getD j default).width ∧
    ((setPos imgs i p).getD j default).height = (imgs.getD j default).height := by
  rcases Decidable.em (i = j) with rfl | hne
  · rcases Decidable.em (i < imgs.length) with hi | hi
    · rw [setPos_getD_same hi]
      exact ⟨rfl, rfl⟩
    · rw [List.getD_eq_default _ _ (by simpa [setPos] using (by omega : imgs.length ≤ i)),
        List.getD_eq_default _ _ (by omega)]
      exact ⟨rfl, rfl⟩
  · rw [setPos_getD_other hne]
    exact ⟨rfl, rfl⟩

/-- One committed placement of a `PackImages` run: the image index it was
recorded on, the node (path) committed into, the padded size used, and the
rectangle `Insert` returned. -/
structure LogEntry where
  idx : Nat
  path : NodePath
  size : Point
  rect : Rectangle
deriving DecidableEq

/-- The greedy placement loop of Go's `Atlas.PackImages` (the
`for len(images) > 0` loop).  State is passed explicitly: the image list (Go
mutates `AtlasPos` through pointers), the tree, and the work list of indices
into the image list.  Each round flattens every unplaced image's candidate
stream (`candidatePairs`), takes the running best (`pickBest`), commits it,
records the position and swap-removes the image.  `none` renders a Go panic
(from `Insert`); the `Bool` is `true` for normal termination and `false` for
the `"Failed to fit all images"` error.  The returned `LogEntry` list is the
sequence of commits actually performed (the information Go records by
mutation), newest round first in recursion order.  The fuel only bounds the
number of rounds; `PackImages` passes `imgs.length`, which lemmas show is
never exhausted since every round removes one work entry. -/
def packLoop : Nat → List AtlasImage → node → List Nat →
    Option (List AtlasImage × node × List LogEntry × Bool)
  | _, imgs, root, [] => some (imgs, root, [], true)
  | 0, _, _, _ :: _ => none
  | fuel+1, imgs, root, j :: rest =>
    match pickBest (candidatePairs root imgs (j :: rest)) with
    | none => some (imgs, root, [], false)
    | some (pos, c) =>
      let idx := (j :: rest).getD pos 0
      let size := paddedSize (imgs.getD idx default)
      match node.InsertAt insertFuel root c.Candidate size with
      | .error _ => none
      | .ok (root', r) =>
        match packLoop fuel (setPos imgs idx r.Min) root' (removeSwap (j :: rest) pos) with
        | none => none
        | some (imgsF, rootF, log, ok) => some (imgsF, rootF, ⟨idx, c.Candidate, size, r⟩ :: log, ok)

/-- Go's `Atlas.PackImages`: a root leaf covering the canvas inset by the
1-pixel border (`image.Rect(1, 1, atlasSize.X, atlasSize.Y)`) and a work
list holding every image, in order. -/
def PackImages (atlasSize : Point) (imgs : List AtlasImage) :
    Option (List AtlasImage × node × List LogEntry × Bool) :=
  packLoop imgs.length imgs (.leaf (imageRect 1 1 atlasSize.X atlasSize.Y) false)
    (List.range imgs.length)

/-- Replaying a commit log over an image list: exactly the `AtlasPos`
mutations the loop performed. -/
def replayImgs (imgs : List AtlasImage) (log : List LogEntry) : List AtlasImage :=
  log.foldl (fun a e => setPos a e.idx e.rect.Min) imgs

/-- Replaying a commit log over a tree: exactly the splits/used flags the
loop committed. -/
def replayTree (t : node) (log : List LogEntry) : node :=
  log.foldl (fun t e =>
    match node.InsertAt insertFuel t e.path e.size with
    | .ok (t', _) => t'
    | .error _ => t) t

/-- Every candidate `FindInsertCandidates` emits addresses an unused leaf
whose rectangle accommodates the size. -/
theorem node.FindInsertCandidates_sound :
    ∀ (t : node) (size : Point) (c : nodeCandidate),
      c ∈ t.FindInsertCandidates size →
      ∃ rl, t.leafAt c.Candidate = some (rl, false) ∧ size.X ≤ rl.Dx ∧ size.Y ≤ rl.Dy := by
  intro t
  induction t with
  | leaf r u =>
      intro size c hc
      simp only [node.FindInsertCandidates] at hc
      split at hc
      · next hfit =>
        split at hc
        · simp at hc
        · next hu =>
          split at hc <;>
            (simp only [List.mem_singleton] at hc
             subst hc
             exact ⟨r, by simp [node.leafAt, hu], hfit.1, hfit.2⟩)
      · simp at hc
  | internal r u l rt ihl ihr =>
      intro size c hc
      simp only [node.FindInsertCandidates] at hc
      split at hc
      · simp only [List.mem_append, List.mem_map] at hc
        rcases hc with ⟨c', hc', rfl⟩ | ⟨c', hc', rfl⟩
        · obtain ⟨rl, hleaf, hdx, hdy⟩ := ihl size c' hc'
          exact ⟨rl, hleaf, hdx, hdy⟩
        · obtain ⟨rl, hleaf, hdx, hdy⟩ := ihr size c' hc'
          exact ⟨rl, hleaf, hdx, hdy⟩
      · simp at hc

theorem pickBest_mem {l : List (Nat × nodeCandidate)} {p : Nat × nodeCandidate}
    (h : pickBest l = some p) : p ∈ l := by
  rw [pickBest_eq_find?] at h
  exact List.mem_of_find?_eq_some h

theorem candidatePairs_mem {root : node} {imgs : List AtlasImage} {work : List Nat}
    {pr : Nat × nodeCandidate} (h : pr ∈ candidatePairs root imgs work) :
    pr.1 < work.length ∧
      pr.2 ∈ root.FindInsertCandidates (paddedSize (imgs.getD (work.getD pr.1 0) default)) := by
  simp only [candidatePairs, List.mem_flatMap, List.mem_map] at h
  obtain ⟨pi, hpi, c, hc, hpr⟩ := h
  rw [List.mem_enum_iff_getElem?] at hpi
  have hlt : pi.1 < work.length := by
    by_contra hge
    rw [List.getElem?_eq_none (by omega)] at hpi
    simp at hpi
  have hget : work.getD pi.1 0 = pi.2 := by
    rw [List.getD_eq_getElem _ _ hlt]
    rw [List.getElem?_eq_getElem hlt] at hpi
    simpa using hpi
  subst hpr
  exact ⟨hlt, by rw [hget]; exact hc⟩

theorem packLoop_cons_eq (fuel : Nat) (imgs : List AtlasImage) (root : node)
    (j : Nat) (rest : List Nat) :
    packLoop (fuel+1) imgs root (j :: rest) =
      match pickBest (candidatePairs root imgs (j :: rest)) with
      | none => some (imgs, root, [], false)
      | some (pos, c) =>
        match node.InsertAt insertFuel root c.Candidate
            (paddedSize (imgs.getD ((j :: rest).getD pos 0) default)) with
        | .error _ => none
        | .ok (root', r) =>
          match packLoop fuel (setPos imgs ((j :: rest).getD pos 0) r.Min) root'
              (removeSwap (j :: rest) pos) with
          | none => none
          | some (imgsF, rootF, log, ok) =>
            some (imgsF, rootF, ⟨(j :: rest).getD pos 0, c.Candidate,
              paddedSize (imgs.getD ((j :: rest).getD pos 0) default), r⟩ :: log, ok) := rfl

/-- Everything one `packLoop` run guarantees about its result, relative to
its starting state. -/
structure PackSpec (imgs : List AtlasImage) (root : node) (work : List Nat)
    (imgsF : List AtlasImage) (rootF : node) (log : List LogEntry) (ok : Bool) : Prop where
  len_eq : imgsF.length = imgs.length
  imgs_eq : imgsF = replayImgs imgs log
  root_eq : rootF = replayTree root log
  idx_nodup : (log.map LogEntry.idx).Nodup
  idx_mem : ∀ e ∈ log, e.idx ∈ work
  size_eq : ∀ e ∈ log, e.size = paddedSize (imgs.getD e.idx default)
  rect_size : ∀ e ∈ log, e.rect.Max = e.rect.Min.Add e.size
  rect_free : ∀ e ∈ log, ∀ x y, e.rect.Mem x y → root.freeMem x y
  log_disjoint : log.Pairwise (fun a b => ∀ x y, ¬(a.rect.Mem x y ∧ b.rect.Mem x y))
  pos_eq : ∀ e ∈ log, (imgsF.getD e.idx default).AtlasPos = e.rect.Min
  untouched : ∀ i, (∀ e ∈ log, e.idx ≠ i) → imgsF.getD i default = imgs.getD i default
  all_placed : ok = true → ∀ i ∈ work, ∃ e ∈ log, e.idx = i
  final_good : rootF.goodUsedB = true
  final_prop : rootF.propAllB = true
  final_sub : rootF.subRectsB = true
  final_cp : rootF.childrenPartition
  final_rect : rootF.Rect = root.Rect

/-- The master specification of the packing loop: it never panics (returns
`some`), and its result satisfies `PackSpec`. -/
theorem packLoop_spec :
    ∀ (fuel : Nat) (imgs : List AtlasImage) (root : node) (work : List Nat),
      work.length ≤ fuel →
      (∀ k : Nat, 0 ≤ (imgs.getD k default).width ∧ 0 ≤ (imgs.getD k default).height) →
      root.goodUsedB = true → root.propAllB = true → root.subRectsB = true →
      root.childrenPartition →
      (∀ i ∈ work, i < imgs.length) → work.Nodup →
      ∃ imgsF rootF log ok,
        packLoop fuel imgs root work = some (imgsF, rootF, log, ok) ∧
        PackSpec imgs root work imgsF rootF log ok := by
  intro fuel
  induction fuel with
  | zero =>
      intro imgs root work hlen hsz hg hpa hsr hcp hwlt hwn
      have hwork : work = [] := by
        cases work with
        | nil => rfl
        | cons a l => simp at hlen
      subst hwork
      exact ⟨imgs, root, [], true, rfl,
        { len_eq := rfl
          imgs_eq := rfl
          root_eq := rfl
          idx_nodup := List.nodup_nil
          idx_mem := by simp
          size_eq := by simp
          rect_size := by simp
          rect_free := by simp
          log_disjoint := List.Pairwise.nil
          pos_eq := by simp
          untouched := fun i _ => rfl
          all_placed := by simp
          final_good := hg
          final_prop := hpa
          final_sub := hsr
          final_cp := hcp
          final_rect := rfl }⟩
  | succ fuel ih =>
      intro imgs root work hlen hsz hg hpa hsr hcp hwlt hwn
      cases work with
      | nil =>
          exact ⟨imgs, root, [], true, rfl,
            { len_eq := rfl
              imgs_eq := rfl
              root_eq := rfl
              idx_nodup := List.nodup_nil
              idx_mem := by simp
              size_eq := by simp
              rect_size := by simp
              rect_free := by simp
              log_disjoint := List.Pairwise.nil
              pos_eq := by simp
              untouched := fun i _ => rfl
              all_placed := by simp
              final_good := hg
              final_prop := hpa
              final_sub := hsr
              final_cp := hcp
              final_rect := rfl }⟩
      | cons j rest =>
        rcases hpick : pickBest (candidatePairs root imgs (j :: rest)) with _ | ⟨pos, c⟩
        · refine ⟨imgs, root, [], false, ?_, ?_⟩
          · rw [packLoop_cons_eq, hpick]
          · exact
              { len_eq := rfl
                imgs_eq := rfl
                root_eq := rfl
                idx_nodup := List.nodup_nil
                idx_mem := by simp
                size_eq := by simp
                rect_size := by simp
                rect_free := by simp
                log_disjoint := List.Pairwise.nil
                pos_eq := by simp
                untouched := fun i _ => rfl
                all_placed := by simp
                final_good := hg
                final_prop := hpa
                final_sub := hsr
                final_cp := hcp
                final_rect := rfl }
        · have hmem := pickBest_mem hpick
          obtain ⟨hpos, hcand⟩ := candidatePairs_mem hmem
          have hidxmem : (j :: rest).getD pos 0 ∈ (j :: rest) := by
            rw [List.getD_eq_getElem _ _ hpos]
            exact List.getElem_mem _
          have hidxlt : (j :: rest).getD pos 0 < imgs.length := hwlt _ hidxmem
          have hszidx := hsz ((j :: rest).getD pos 0)
          have hx : 0 ≤ (paddedSize (imgs.getD ((j :: rest).getD pos 0) default)).X := by
            simp only [paddedSize]
            omega
          have hy : 0 ≤ (paddedSize (imgs.getD ((j :: rest).getD pos 0) default)).Y := by
            simp only [paddedSize]
            omega
          obtain ⟨rl, hleaf, hdx, hdy⟩ := node.FindInsertCandidates_sound root _ c hcand
          obtain ⟨root', r, hins⟩ :=
            node.InsertAt_isOk c.Candidate root _ rl hleaf hpa hx hy hdx hdy
          obtain ⟨iRect, iMax, iGood, iProp, iSub, iCP, iCount, iFree, iMemFree⟩ :=
            node.InsertAt_spec c.Candidate insertFuel root root' _ r hins hg hpa hsr hcp hx hy
          have hlen' : (removeSwap (j :: rest) pos).length ≤ fuel := by
            rw [removeSwap_length (by simp) pos]
            simp only [List.length_cons] at hlen ⊢
            omega
          have hsz' : ∀ k : Nat,
              0 ≤ ((setPos imgs ((j :: rest).getD pos 0) r.Min).getD k default).width ∧
              0 ≤ ((setPos imgs ((j :: rest).getD pos 0) r.Min).getD k default).height := by
            intro k
            have hw := setPos_width imgs ((j :: rest).getD pos 0) k r.Min
            rw [hw.1, hw.2]
            exact hsz k
          have hwlt' : ∀ i ∈ removeSwap (j :: rest) pos,
              i < (setPos imgs ((j :: rest).getD pos 0) r.Min).length := by
            intro i hi
            rw [setPos_length]
            exact hwlt i (removeSwap_subset hi)
          have hwn' : (removeSwap (j :: rest) pos).Nodup := removeSwap_nodup hwn pos
          obtain ⟨imgsF, rootF, log', ok, hrec, spec⟩ :=
            ih (setPos imgs ((j :: rest).getD pos 0) r.Min) root'
              (removeSwap (j :: rest) pos) hlen' hsz' iGood iProp iSub iCP hwlt' hwn'
          have hidx_not_mem_tail : ∀ e ∈ log', e.idx ≠ (j :: rest).getD pos 0 := by
            intro e he heq
            have h1 := spec.idx_mem e he
            rw [heq] at h1
            exact removeSwap_not_mem hwn hpos h1
          refine ⟨imgsF, rootF,
            ⟨(j :: rest).getD pos 0, c.Candidate,
              paddedSize (imgs.getD ((j :: rest).getD pos 0) default), r⟩ :: log', ok, ?_, ?_⟩
          · rw [packLoop_cons_eq]
            split
            next heq => rw [hpick] at heq; simp at heq
            next pos' c' heq =>
              rw [hpick] at heq
              simp only [Option.some.injEq, Prod.mk.injEq] at heq
              obtain ⟨h1, h2⟩ := heq
              subst h1; subst h2
              split
              next e heq2 => rw [hins] at heq2; simp at heq2
              next root'' r' heq2 =>
                rw [hins] at heq2
                simp only [Except.ok.injEq, Prod.mk.injEq] at heq2
                obtain ⟨h1, h2⟩ := heq2
                subst h1; subst h2
                split
                next heq3 => rw [hrec] at heq3; simp at heq3
                next imgsF' rootF' log'' ok' heq3 =>
                  rw [hrec] at heq3
                  simp only [Option.some.injEq, Prod.mk.injEq] at heq3
                  obtain ⟨h1, h2, h3, h4⟩ := heq3
                  subst h1; subst h2; subst h3; subst h4
                  rfl
          · refine
              { len_eq := by rw [spec.len_eq, setPos_length]
                imgs_eq := spec.imgs_eq
                root_eq := by
                  rw [spec.root_eq]
                  show replayTree root' log' = replayTree root _
                  simp only [replayTree, List.foldl_cons, hins]
                idx_nodup := by
                  simp only [List.map_cons, List.nodup_cons, List.mem_map]
                  refine ⟨?_, spec.idx_nodup⟩
                  rintro ⟨e, he, heq⟩
                  exact hidx_not_mem_tail e he heq
                idx_mem := ?_
                size_eq := ?_
                rect_size := ?_
                rect_free := ?_
                log_disjoint := ?_
                pos_eq := ?_
                untouched := ?_
                all_placed := ?_
                final_good := spec.final_good
                final_prop := spec.final_prop
                final_sub := spec.final_sub
                final_cp := spec.final_cp
                final_rect := spec.final_rect.trans iRect }
            · -- idx_mem
              intro e he
              rcases List.mem_cons.mp he with rfl | he'
              · exact hidxmem
              · exact removeSwap_subset (spec.idx_mem e he')
            · -- size_eq
              intro e he
              rcases List.mem_cons.mp he with rfl | he'
              · rfl
              · rw [spec.size_eq e he']
                have hw := setPos_width imgs ((j :: rest).getD pos 0) e.idx r.Min
                simp only [paddedSize, hw.1, hw.2]
            · -- rect_size
              intro e he
              rcases List.mem_cons.mp he with rfl | he'
              · exact iMax
              · exact spec.rect_size e he'
            · -- rect_free
              intro e he x y hm
              rcases List.mem_cons.mp he with rfl | he'
              · exact iMemFree x y hm
              · exact (iFree x y (spec.rect_free e he' x y hm)).1
            · -- log_disjoint
              refine List.Pairwise.cons ?_ spec.log_disjoint
              intro b hb x y hxy
              have hfree' := spec.rect_free b hb x y hxy.2
              exact (iFree x y hfree').2 hxy.1
            · -- pos_eq
              intro e he
              rcases List.mem_cons.mp he with rfl | he'
              · rw [spec.untouched _ hidx_not_mem_tail]
                rw [setPos_getD_same hidxlt]
              · exact spec.pos_eq e he'
            · -- untouched
              intro i hni
              have hidxne : (j :: rest).getD pos 0 ≠ i :=
                hni _ (List.mem_cons_self _ _)
              have htail : ∀ e ∈ log', e.idx ≠ i :=
                fun e he => hni e (List.mem_cons_of_mem _ he)
              rw [spec.untouched i htail, setPos_getD_other hidxne]
            · -- all_placed
              intro hok i hi
              rcases Decidable.em (i = (j :: rest).getD pos 0) with rfl | hne
              · exact ⟨_, List.mem_cons_self _ _, rfl⟩
              · have hi' : i ∈ removeSwap (j :: rest) pos :=
                  removeSwap_mem_of_ne hwn hpos hi hne
                obtain ⟨e, he, heq⟩ := spec.all_placed hok i hi'
                exact ⟨e, List.mem_cons_of_mem _ he, heq⟩

/-- All images have non-negative trimmed sizes (true of every real sprite:
trimmed images are at least 1×1). -/
def sizesNonneg (imgs : List AtlasImage) : Prop :=
  ∀ img ∈ imgs, 0 ≤ img.width ∧ 0 ≤ img.height

instance (imgs : List AtlasImage) : Decidable (sizesNonneg imgs) := by
  unfold sizesNonneg; infer_instance

theorem sizesNonneg_getD {imgs : List AtlasImage} (h : sizesNonneg imgs) :
    ∀ k : Nat, 0 ≤ (imgs.getD k default).width ∧ 0 ≤ (imgs.getD k default).height := by
  intro k
  rcases Decidable.em (k < imgs.length) with hk | hk
  · exact h _ (by rw [List.getD_eq_getElem _ _ hk]; exact List.getElem_mem _)
  · rw [List.getD_eq_default _ _ (by omega)]
    exact ⟨le_refl _, le_refl _⟩

/-- `PackImages` always returns a value (never panics) and its result
satisfies the loop specification. -/
theorem PackImages_spec (atlasSize : Point) (imgs : List AtlasImage)
    (h : sizesNonneg imgs) :
    ∃ imgsF rootF log ok, PackImages atlasSize imgs = some (imgsF, rootF, log, ok) ∧
      PackSpec imgs (.leaf (imageRect 1 1 atlasSize.X atlasSize.Y) false)
        (List.range imgs.length) imgsF rootF log ok := by
  apply packLoop_spec
  · simp
  · exact sizesNonneg_getD h
  · rfl
  · simp [node.propAllB, imageRect_proper]
  · rfl
  · trivial
  · intro i hi
    simpa using hi
  · exact List.nodup_range _

/-- C4's content as a predicate on a pack run: the run returns a value (a Go
panic is impossible); on normal termination every input sprite has a commit
in the log and its recorded position; the only other outcome is the single
fit-failure error (the `false` result, Go's `"Failed to fit all images"`). -/
def packAllOrFail (atlasSize : Point) (imgs : List AtlasImage) : Prop :=
  match PackImages atlasSize imgs with
  | none => False
  | some (imgsF, _, log, true) =>
      ∀ i < imgs.length, ∃ e ∈ log, e.idx = i ∧ (imgsF.getD i default).AtlasPos = e.rect.Min
  | some (_, _, _, false) => True

/-- C4: all-or-fail packing.  `PackImages` either terminates normally with
every input sprite assigned a position, or returns the single fit-failure
error; no sprite is silently dropped and there is no partial-success result
value. -/
theorem c4_all_or_fail (atlasSize : Point) (imgs : List AtlasImage)
    (h : sizesNonneg imgs) : packAllOrFail atlasSize imgs := by
  obtain ⟨imgsF, rootF, log, ok, heq, spec⟩ := PackImages_spec atlasSize imgs h
  unfold packAllOrFail
  rw [heq]
  cases ok with
  | false => trivial
  | true =>
      show ∀ i < imgs.length, _
      intro i hi
      obtain ⟨e, he, heidx⟩ := spec.all_placed rfl i (by simpa using hi)
      subst heidx
      exact ⟨e, he, rfl, spec.pos_eq e he⟩

theorem c4_all_or_fail_witness :
    sizesNonneg [⟨1, 1, ⟨0, 0⟩⟩, ⟨1, 1, ⟨0, 0⟩⟩] ∧
    (PackImages ⟨6, 6⟩ [⟨1, 1, ⟨0, 0⟩⟩, ⟨1, 1, ⟨0, 0⟩⟩]).map (fun x => x.2.2.2) = some true ∧
    packAllOrFail ⟨6, 6⟩ [⟨1, 1, ⟨0, 0⟩⟩, ⟨1, 1, ⟨0, 0⟩⟩] :=
  ⟨by decide, by decide, c4_all_or_fail ⟨6, 6⟩ [⟨1, 1, ⟨0, 0⟩⟩, ⟨1, 1, ⟨0, 0⟩⟩] (by decide)⟩

/-- C8: commit precondition safety.  `Insert` panics — a fatal error, not a
recoverable one — on a node that is already used or smaller than the request
in either dimension; and a `PackImages` run never reaches that panic (it
always returns a value), because the winning candidate is an unused leaf
large enough for the same padded size that was used during the search. -/
theorem c8_commit_precondition_safety (fuel : Nat) (n : node) (size : Point)
    (atlasSize : Point) (imgs : List AtlasImage) :
    (n.Used = true ∨ n.Rect.Dx < size.X ∨ n.Rect.Dy < size.Y →
      node.Insert (fuel + 1) n size = .error .panic) ∧
    (sizesNonneg imgs → PackImages atlasSize imgs ≠ none) := by
  constructor
  · exact node.Insert_panic
  · intro h
    obtain ⟨imgsF, rootF, log, ok, heq, -⟩ := PackImages_spec atlasSize imgs h
    rw [heq]
    simp

theorem c8_commit_precondition_safety_witness :
    node.Insert 1 (.leaf (imageRect 0 0 5 5) true) ⟨1, 1⟩ = .error .panic ∧
    PackImages ⟨4, 4⟩ [⟨1, 1, ⟨0, 0⟩⟩] ≠ none :=
  ⟨(c8_commit_precondition_safety 0 (.leaf (imageRect 0 0 5 5) true) ⟨1, 1⟩
      ⟨4, 4⟩ [⟨1, 1, ⟨0, 0⟩⟩]).1 (Or.inl rfl),
   (c8_commit_precondition_safety 0 (.leaf (imageRect 0 0 5 5) true) ⟨1, 1⟩
      ⟨4, 4⟩ [⟨1, 1, ⟨0, 0⟩⟩]).2 (by decide)⟩

/-- C7's content as a predicate on a successful pack run: every commit's
size is the sprite's trimmed size plus one unit per axis and its rectangle
has exactly that size; the committed (padded) rectangles are pairwise
disjoint; and every sprite's placed rectangle — its recorded position plus
its trimmed size — lies within the canvas `[0, atlasSize.X) × [0,
atlasSize.Y)`. -/
def packNoOverlapContained (atlasSize : Point) (imgs : List AtlasImage) : Prop :=
  match PackImages atlasSize imgs with
  | some (imgsF, _, log, true) =>
      (∀ e ∈ log, e.size = paddedSize (imgs.getD e.idx default) ∧
          e.rect.Max = e.rect.Min.Add e.size) ∧
      log.Pairwise (fun a b => ∀ x y, ¬(a.rect.Mem x y ∧ b.rect.Mem x y)) ∧
      (∀ i < imgs.length, ∃ e ∈ log, e.idx = i ∧
        (imgsF.getD i default).AtlasPos = e.rect.Min ∧
        ∀ x y : Int,
          Rectangle.Mem ⟨e.rect.Min, ⟨e.rect.Min.X + (imgs.getD i default).width,
            e.rect.Min.Y + (imgs.getD i default).height⟩⟩ x y →
          Rectangle.Mem ⟨⟨0, 0⟩, ⟨atlasSize.X, atlasSize.Y⟩⟩ x y)
  | _ => True

/-- C7: no-overlap and containment of placements on a canvas of positive
size. -/
theorem c7_no_overlap_containment (atlasSize : Point) (imgs : List AtlasImage)
    (h : sizesNonneg imgs) (hW : 1 ≤ atlasSize.X) (hH : 1 ≤ atlasSize.Y) :
    packNoOverlapContained atlasSize imgs := by
  obtain ⟨imgsF, rootF, log, ok, heq, spec⟩ := PackImages_spec atlasSize imgs h
  unfold packNoOverlapContained
  rw [heq]
  cases ok with
  | false => trivial
  | true =>
      refine ⟨fun e he => ⟨spec.size_eq e he, spec.rect_size e he⟩, spec.log_disjoint, ?_⟩
      intro i hi
      obtain ⟨e, he, heidx⟩ := spec.all_placed rfl i (by simpa using hi)
      subst heidx
      refine ⟨e, he, rfl, spec.pos_eq e he, ?_⟩
      intro x y hm
      have hrmem : e.rect.Mem x y := by
        have hsz := spec.size_eq e he
        have hmax := spec.rect_size e he
        simp only [Rectangle.Mem] at hm ⊢
        rw [hmax, hsz]
        simp only [Point.Add, paddedSize]
        obtain ⟨m1, m2, m3, m4⟩ := hm
        refine ⟨m1, by omega, m3, by omega⟩
      have hfree := spec.rect_free e he x y hrmem
      have hroot : (Rectangle.Mem (imageRect 1 1 atlasSize.X atlasSize.Y) x y) := by
        simpa [node.freeMem] using hfree
      rw [imageRect_of_le (by omega) (by omega)] at hroot
      simp only [Rectangle.Mem] at hroot ⊢
      omega

theorem c7_no_overlap_containment_witness :
    sizesNonneg [⟨1, 1, ⟨0, 0⟩⟩, ⟨1, 1, ⟨0, 0⟩⟩] ∧ (1 : Int) ≤ 6 ∧
    (PackImages ⟨6, 6⟩ [⟨1, 1, ⟨0, 0⟩⟩, ⟨1, 1, ⟨0, 0⟩⟩]).map
      (fun x => (x.2.2.2, (x.1.getD 0 default).AtlasPos, (x.1.getD 1 default).AtlasPos)) =
      some (true, ⟨1, 1⟩, ⟨1, 3⟩) ∧
    packNoOverlapContained ⟨6, 6⟩ [⟨1, 1, ⟨0, 0⟩⟩, ⟨1, 1, ⟨0, 0⟩⟩] :=
  ⟨by decide, by decide, by decide,
    c7_no_overlap_containment ⟨6, 6⟩ [⟨1, 1, ⟨0, 0⟩⟩, ⟨1, 1, ⟨0, 0⟩⟩]
      (by decide) (by decide) (by decide)⟩

/-- C10's content as a predicate on a failing pack run: the images returned
with the error are exactly the starting images with the logged positions
written (placed sprites keep their recorded `AtlasPos`); the tree returned
is exactly the starting root with the logged commits applied (all splits and
used flags are retained); and sprites with no commit in the log are returned
exactly as they came in (never-placed sprites keep their zero-value
position).  Nothing is undone on failure. -/
def packNoRollback (atlasSize : Point) (imgs : List AtlasImage) : Prop :=
  match PackImages atlasSize imgs with
  | some (imgsF, rootF, log, false) =>
      imgsF = replayImgs imgs log ∧
      rootF = replayTree (.leaf (imageRect 1 1 atlasSize.X atlasSize.Y) false) log ∧
      (∀ e ∈ log, (imgsF.getD e.idx default).AtlasPos = e.rect.Min) ∧
      (∀ i : Nat, (∀ e ∈ log, e.idx ≠ i) → imgsF.getD i default = imgs.getD i default)
  | _ => True

/-- C10: no rollback on fit failure — the fit-failure error return is not
atomic with respect to the Atlas state. -/
theorem c10_no_rollback (atlasSize : Point) (imgs : List AtlasImage)
    (h : sizesNonneg imgs) : packNoRollback atlasSize imgs := by
  obtain ⟨imgsF, rootF, log, ok, heq, spec⟩ := PackImages_spec atlasSize imgs h
  unfold packNoRollback
  rw [heq]
  cases ok with
  | true => trivial
  | false => exact ⟨spec.imgs_eq, spec.root_eq, spec.pos_eq, spec.untouched⟩

theorem c10_no_rollback_witness :
    sizesNonneg [⟨2, 2, ⟨0, 0⟩⟩, ⟨9, 9, ⟨0, 0⟩⟩] ∧
    (PackImages ⟨4, 4⟩ [⟨2, 2, ⟨0, 0⟩⟩, ⟨9, 9, ⟨0, 0⟩⟩]).map
      (fun x => (x.2.2.2, (x.1.getD 0 default).AtlasPos)) = some (false, ⟨1, 1⟩) ∧
    packNoRollback ⟨4, 4⟩ [⟨2, 2, ⟨0, 0⟩⟩, ⟨9, 9, ⟨0, 0⟩⟩] :=
  ⟨by decide, by decide, c10_no_rollback ⟨4, 4⟩ [⟨2, 2, ⟨0, 0⟩⟩, ⟨9, 9, ⟨0, 0⟩⟩] (by decide)⟩

/-! ## The trimmer (`ImageMaxAlpha`, `TrimImage`) -/

/-- An in-memory RGBA image, as the trimmer sees it: its bounds and the
alpha component of each pixel (`Pix[(x*4+y*Stride)+3]`), meaningful inside
the bounds. -/
structure Img where
  bounds : Rectangle
  alpha : Int → Int → Nat

/-- The integers in `[a, b)`. -/
def intRange (a b : Int) : List Int := (List.range (b - a).toNat).map fun k : Nat => a + (k : Int)

/-- The pixels of a rectangle, rows outer / columns inner, the order the Go
scan loops visit them. -/
def rectPoints (r : Rectangle) : List (Int × Int) :=
  (intRange r.Min.Y r.Max.Y).flatMap fun y => (intRange r.Min.X r.Max.X).map fun x => (x, y)

/-- Go's `ImageMaxAlpha` on an `*image.RGBA`: the maximum alpha over the
image's bounds (`0` for an empty image). -/
def ImageMaxAlpha (img : Img) : Nat :=
  (rectPoints img.bounds).foldr (fun p m => max (img.alpha p.1 p.2) m) 0

/-- Go's `Rectangle.Empty`. -/
def Rectangle.Empty (r : Rectangle) : Bool :=
  decide (r.Max.X ≤ r.Min.X) || decide (r.Max.Y ≤ r.Min.Y)

/-- Go's `Rectangle.Intersect`: componentwise max/min, and the zero rectangle
if the result contains no points. -/
def Rectangle.Intersect (r s : Rectangle) : Rectangle :=
  let t : Rectangle := ⟨⟨max r.Min.X s.Min.X, max r.Min.Y s.Min.Y⟩,
                        ⟨min r.Max.X s.Max.X, min r.Max.Y s.Max.Y⟩⟩
  if t.Empty then ⟨⟨0, 0⟩, ⟨0, 0⟩⟩ else t

/-- Go's `RGBA.SubImage`: the portion of the image visible through `r`,
sharing pixels; its bounds are `r.Intersect(img.bounds)`. -/
def SubImage (img : Img) (r : Rectangle) : Img :=
  ⟨r.Intersect img.bounds, img.alpha⟩

theorem mem_intRange {a b x : Int} : x ∈ intRange a b ↔ a ≤ x ∧ x < b := by
  simp only [intRange, List.mem_map, List.mem_range]
  constructor
  · rintro ⟨k, hk, rfl⟩
    omega
  · rintro ⟨h1, h2⟩
    exact ⟨(x - a).toNat, by omega, by omega⟩

theorem mem_rectPoints {r : Rectangle} {x y : Int} :
    (x, y) ∈ rectPoints r ↔ r.Mem x y := by
  simp only [rectPoints, List.mem_flatMap, List.mem_map, Prod.mk.injEq]
  constructor
  · rintro ⟨y', hy', x', hx', rfl, rfl⟩
    rw [mem_intRange] at hy' hx'
    exact ⟨hx'.1, hx'.2, hy'.1, hy'.2⟩
  · rintro ⟨h1, h2, h3, h4⟩
    exact ⟨y, mem_intRange.mpr ⟨h3, h4⟩, x, mem_intRange.mpr ⟨h1, h2⟩, rfl, rfl⟩

theorem foldr_max_eq_zero_iff {α : Type _} (f : α → Nat) (l : List α) :
    l.foldr (fun p m => max (f p) m) 0 = 0 ↔ ∀ p ∈ l, f p = 0 := by
  induction l with
  | nil => simp
  | cons a l ih =>
      simp only [List.foldr_cons, Nat.max_eq_zero_iff, List.mem_cons]
      constructor
      · rintro ⟨h1, h2⟩ p hp
        rcases hp with rfl | hp
        · exact h1
        · exact ih.mp h2 p hp
      · intro h
        exact ⟨h a (Or.inl rfl), ih.mpr fun p hp => h p (Or.inr hp)⟩

theorem ImageMaxAlpha_eq_zero_iff {img : Img} :
    ImageMaxAlpha img = 0 ↔ ∀ x y, img.bounds.Mem x y → img.alpha x y = 0 := by
  unfold ImageMaxAlpha
  rw [foldr_max_eq_zero_iff]
  constructor
  · intro h x y hm
    exact h (x, y) (mem_rectPoints.mpr hm)
  · rintro h ⟨x, y⟩ hp
    exact h x y (mem_rectPoints.mp hp)

theorem Empty_not_Mem {r : Rectangle} (h : r.Empty = true) : ∀ x y, ¬ r.Mem x y := by
  intro x y hm
  simp only [Rectangle.Empty, Bool.or_eq_true, decide_eq_true_eq] at h
  obtain ⟨h1, h2, h3, h4⟩ := hm
  omega

theorem Intersect_of_sub {s b : Rectangle} (hsub : s.Sub b) (hne : s.Empty = false) :
    s.Intersect b = s := by
  obtain ⟨h1, h2, h3, h4⟩ := hsub
  simp only [Rectangle.Empty, Bool.or_eq_false_iff, decide_eq_false_iff_not, not_le] at hne
  obtain ⟨g1, g2⟩ := hne
  have e1 : max s.Min.X b.Min.X = s.Min.X := by omega
  have e2 : max s.Min.Y b.Min.Y = s.Min.Y := by omega
  have e3 : min s.Max.X b.Max.X = s.Max.X := by omega
  have e4 : min s.Max.Y b.Max.Y = s.Max.Y := by omega
  unfold Rectangle.Intersect
  simp only [e1, e2, e3, e4]
  rw [if_neg]
  · simp only [Rectangle.Empty, Bool.or_eq_true, decide_eq_true_eq]
    omega

theorem ImageMaxAlpha_SubImage_eq_zero_iff {img : Img} {s : Rectangle}
    (hsub : s.Sub img.bounds) :
    ImageMaxAlpha (SubImage img s) = 0 ↔ ∀ x y, s.Mem x y → img.alpha x y = 0 := by
  cases hemp : s.Empty with
  | false =>
      rw [show SubImage img s = ⟨s, img.alpha⟩ from by
        simp [SubImage, Intersect_of_sub hsub hemp]]
      exact ImageMaxAlpha_eq_zero_iff
  | true =>
      have hval : ImageMaxAlpha (SubImage img s) = 0 := by
        have hz : SubImage img s = ⟨⟨⟨0, 0⟩, ⟨0, 0⟩⟩, img.alpha⟩ := by
          simp only [SubImage]
          congr 1
          simp only [Rectangle.Intersect]
          rw [if_pos]
          simp only [Rectangle.Empty, Bool.or_eq_true, decide_eq_true_eq] at hemp ⊢
          omega
        rw [hz]
        rfl
      exact ⟨fun _ x y hm => absurd hm (Empty_not_Mem hemp x y), fun _ => hval⟩

/-- The first loop of `TrimImage`: while the width exceeds 1 and the
1-pixel-wide right edge strip (against the *current* rectangle) is fully
transparent, move the right edge inward. -/
def shrinkRight (img : Img) : Nat → Rectangle → Rectangle
  | 0, t => t
  | fuel+1, t =>
      if t.Max.X - t.Min.X > 1 ∧
          ImageMaxAlpha (SubImage img (imageRect (t.Max.X - 1) t.Min.Y t.Max.X t.Max.Y)) = 0
      then shrinkRight img fuel ⟨t.Min, ⟨t.Max.X - 1, t.Max.Y⟩⟩
      else t

/-- The second loop: move the left edge inward over transparent left strips. -/
def shrinkLeft (img : Img) : Nat → Rectangle → Rectangle
  | 0, t => t
  | fuel+1, t =>
      if t.Max.X - t.Min.X > 1 ∧
          ImageMaxAlpha (SubImage img (imageRect t.Min.X t.Min.Y (t.Min.X + 1) t.Max.Y)) = 0
      then shrinkLeft img fuel ⟨⟨t.Min.X + 1, t.Min.Y⟩, t.Max⟩
      else t

/-- The third loop: move the bottom edge (`Max.Y`) inward over transparent
bottom strips (the strip spans the current, possibly already shrunk,
`X` range). -/
def shrinkBottom (img : Img) : Nat → Rectangle → Rectangle
  | 0, t => t
  | fuel+1, t =>
      if t.Max.Y - t.Min.Y > 1 ∧
          ImageMaxAlpha (SubImage img (imageRect t.Min.X (t.Max.Y - 1) t.Max.X t.Max.Y)) = 0
      then shrinkBottom img fuel ⟨t.Min, ⟨t.Max.X, t.Max.Y - 1⟩⟩
      else t

/-- The fourth loop: move the top edge (`Min.Y`) inward over transparent top
strips. -/
def shrinkTop (img : Img) : Nat → Rectangle → Rectangle
  | 0, t => t
  | fuel+1, t =>
      if t.Max.Y - t.Min.Y > 1 ∧
          ImageMaxAlpha (SubImage img (imageRect t.Min.X t.Min.Y t.Max.X (t.Min.Y + 1))) = 0
      then shrinkTop img fuel ⟨⟨t.Min.X, t.Min.Y + 1⟩, t.Max⟩
      else t

/-- Go's `TrimImage`: shrink the right, left, bottom and top edges in that
order, then return `src.SubImage(trim)`.  Each loop's fuel is the axis
extent, which bounds its iteration count. -/
def TrimImage (img : Img) : Img :=
  let t0 := img.bounds
  let t1 := shrinkRight img (t0.Max.X - t0.Min.X).toNat t0
  let t2 := shrinkLeft img (t1.Max.X - t1.Min.X).toNat t1
  let t3 := shrinkBottom img (t2.Max.Y - t2.Min.Y).toNat t2
  let t4 := shrinkTop img (t3.Max.Y - t3.Min.Y).toNat t3
  SubImage img t4

theorem shrinkRight_spec (img : Img) :
    ∀ (fuel : Nat) (t : Rectangle),
      t.Sub img.bounds →
      t.Min.X < t.Max.X → t.Min.Y ≤ t.Max.Y →
      (t.Max.X - t.Min.X).toNat ≤ fuel →
      (shrinkRight img fuel t).Min = t.Min ∧
      (shrinkRight img fuel t).Max.Y = t.Max.Y ∧
      t.Min.X < (shrinkRight img fuel t).Max.X ∧
      (shrinkRight img fuel t).Max.X ≤ t.Max.X ∧
      (∀ x y, (shrinkRight img fuel t).Max.X ≤ x → x < t.Max.X →
        t.Min.Y ≤ y → y < t.Max.Y → img.alpha x y = 0) ∧
      ((shrinkRight img fuel t).Max.X = t.Min.X + 1 ∨
        ∃ y, t.Min.Y ≤ y ∧ y < t.Max.Y ∧
          img.alpha ((shrinkRight img fuel t).Max.X - 1) y ≠ 0) := by
  intro fuel
  induction fuel with
  | zero => intro t _ hx _ hfuel; omega
  | succ fuel ih =>
      intro t hsub hx hy hfuel
      obtain ⟨s1, s2, s3, s4⟩ := hsub
      by_cases hcond : t.Max.X - t.Min.X > 1 ∧
          ImageMaxAlpha (SubImage img (imageRect (t.Max.X - 1) t.Min.Y t.Max.X t.Max.Y)) = 0
      · have hstep : shrinkRight img (fuel+1) t =
            shrinkRight img fuel ⟨t.Min, ⟨t.Max.X - 1, t.Max.Y⟩⟩ := by
          simp only [shrinkRight]
          rw [if_pos hcond]
        obtain ⟨hc1, hc2⟩ := hcond
        have hstrip : (imageRect (t.Max.X - 1) t.Min.Y t.Max.X t.Max.Y).Sub img.bounds := by
          rw [imageRect_of_le (by omega) (by omega)]
          exact ⟨(by omega : img.bounds.Min.X ≤ t.Max.X - 1), s2, s3, s4⟩
        have hzero : ∀ x y, t.Max.X - 1 ≤ x → x < t.Max.X → t.Min.Y ≤ y → y < t.Max.Y →
            img.alpha x y = 0 := by
          intro x y a1 a2 a3 a4
          have hiff := (ImageMaxAlpha_SubImage_eq_zero_iff hstrip).mp hc2 x y
          rw [imageRect_of_le (by omega) (by omega)] at hiff
          exact hiff ⟨a1, a2, a3, a4⟩
        obtain ⟨i1, i2, i3, i4, i5, i6⟩ := ih ⟨t.Min, ⟨t.Max.X - 1, t.Max.Y⟩⟩
          ⟨s1, (show t.Max.X - 1 ≤ img.bounds.Max.X by omega), s3, s4⟩
          (show t.Min.X < t.Max.X - 1 by omega)
          (show t.Min.Y ≤ t.Max.Y from hy)
          (show (t.Max.X - 1 - t.Min.X).toNat ≤ fuel by omega)
        have i1' : (shrinkRight img fuel ⟨t.Min, ⟨t.Max.X - 1, t.Max.Y⟩⟩).Min = t.Min := i1
        have i2' : (shrinkRight img fuel ⟨t.Min, ⟨t.Max.X - 1, t.Max.Y⟩⟩).Max.Y = t.Max.Y := i2
        have i3' : t.Min.X < (shrinkRight img fuel ⟨t.Min, ⟨t.Max.X - 1, t.Max.Y⟩⟩).Max.X := i3
        have i4' : (shrinkRight img fuel ⟨t.Min, ⟨t.Max.X - 1, t.Max.Y⟩⟩).Max.X ≤
            t.Max.X - 1 := i4
        have i5' : ∀ x y, (shrinkRight img fuel ⟨t.Min, ⟨t.Max.X - 1, t.Max.Y⟩⟩).Max.X ≤ x →
            x < t.Max.X - 1 → t.Min.Y ≤ y → y < t.Max.Y → img.alpha x y = 0 := i5
        have i6' : (shrinkRight img fuel ⟨t.Min, ⟨t.Max.X - 1, t.Max.Y⟩⟩).Max.X = t.Min.X + 1 ∨
            ∃ y, t.Min.Y ≤ y ∧ y < t.Max.Y ∧
              img.alpha ((shrinkRight img fuel ⟨t.Min, ⟨t.Max.X - 1, t.Max.Y⟩⟩).Max.X - 1) y
                ≠ 0 := i6
        rw [hstep]
        refine ⟨i1', i2', i3', by omega, ?_, i6'⟩
        intro x y a1 a2 a3 a4
        rcases Decidable.em (x < t.Max.X - 1) with hlt | hge
        · exact i5' x y a1 hlt a3 a4
        · exact hzero x y (by omega) a2 a3 a4
      · have hstep : shrinkRight img (fuel+1) t = t := by
          simp only [shrinkRight]
          rw [if_neg hcond]
        rw [hstep]
        refine ⟨rfl, rfl, hx, le_refl _, fun x y a1 a2 _ _ => absurd a2 (by omega), ?_⟩
        by_cases hdx : t.Max.X - t.Min.X > 1
        · have hne : ImageMaxAlpha
              (SubImage img (imageRect (t.Max.X - 1) t.Min.Y t.Max.X t.Max.Y)) ≠ 0 :=
            fun h => hcond ⟨hdx, h⟩
          have hstrip : (imageRect (t.Max.X - 1) t.Min.Y t.Max.X t.Max.Y).Sub img.bounds := by
            rw [imageRect_of_le (by omega) (by omega)]
            exact ⟨(by omega : img.bounds.Min.X ≤ t.Max.X - 1), s2, s3, s4⟩
          have hex : ¬ ∀ x y, (imageRect (t.Max.X - 1) t.Min.Y t.Max.X t.Max.Y).Mem x y →
              img.alpha x y = 0 :=
            fun h => hne ((ImageMaxAlpha_SubImage_eq_zero_iff hstrip).mpr h)
          push_neg at hex
          obtain ⟨x, y, hm, hα⟩ := hex
          rw [imageRect_of_le (by omega) (by omega)] at hm
          obtain ⟨m1, m2, m3, m4⟩ := hm
          have m1' : t.Max.X - 1 ≤ x := m1
          have m2' : x < t.Max.X := m2
          have m3' : t.Min.Y ≤ y := m3
          have m4' : y < t.Max.Y := m4
          right
          refine ⟨y, m3', m4', ?_⟩
          have hxeq : x = t.Max.X - 1 := by omega
          subst hxeq
          exact hα
        · left
          omega

theorem shrinkLeft_spec (img : Img) :
    ∀ (fuel : Nat) (t : Rectangle),
      t.Sub img.bounds →
      t.Min.X < t.Max.X → t.Min.Y ≤ t.Max.Y →
      (t.Max.X - t.Min.X).toNat ≤ fuel →
      (shrinkLeft img fuel t).Max = t.Max ∧
      (shrinkLeft img fuel t).Min.Y = t.Min.Y ∧
      t.Min.X ≤ (shrinkLeft img fuel t).Min.X ∧
      (shrinkLeft img fuel t).Min.X < t.Max.X ∧
      (∀ x y, t.Min.X ≤ x → x < (shrinkLeft img fuel t).Min.X →
        t.Min.Y ≤ y → y < t.Max.Y → img.alpha x y = 0) ∧
      ((shrinkLeft img fuel t).Min.X = t.Max.X - 1 ∨
        ∃ y, t.Min.Y ≤ y ∧ y < t.Max.Y ∧
          img.alpha ((shrinkLeft img fuel t).Min.X) y ≠ 0) := by
  intro fuel
  induction fuel with
  | zero => intro t _ hx _ hfuel; omega
  | succ fuel ih =>
      intro t hsub hx hy hfuel
      obtain ⟨s1, s2, s3, s4⟩ := hsub
      by_cases hcond : t.Max.X - t.Min.X > 1 ∧
          ImageMaxAlpha (SubImage img (imageRect t.Min.X t.Min.Y (t.Min.X + 1) t.Max.Y)) = 0
      · have hstep : shrinkLeft img (fuel+1) t =
            shrinkLeft img fuel ⟨⟨t.Min.X + 1, t.Min.Y⟩, t.Max⟩ := by
          simp only [shrinkLeft]
          rw [if_pos hcond]
        obtain ⟨hc1, hc2⟩ := hcond
        have hstrip : (imageRect t.Min.X t.Min.Y (t.Min.X + 1) t.Max.Y).Sub img.bounds := by
          rw [imageRect_of_le (by omega) (by omega)]
          exact ⟨s1, (by omega : t.Min.X + 1 ≤ img.bounds.Max.X), s3, s4⟩
        have hzero : ∀ x y, t.Min.X ≤ x → x < t.Min.X + 1 → t.Min.Y ≤ y → y < t.Max.Y →
            img.alpha x y = 0 := by
          intro x y a1 a2 a3 a4
          have hiff := (ImageMaxAlpha_SubImage_eq_zero_iff hstrip).mp hc2 x y
          rw [imageRect_of_le (by omega) (by omega)] at hiff
          exact hiff ⟨a1, a2, a3, a4⟩
        obtain ⟨i1, i2, i3, i4, i5, i6⟩ := ih ⟨⟨t.Min.X + 1, t.Min.Y⟩, t.Max⟩
          ⟨(show img.bounds.Min.X ≤ t.Min.X + 1 by omega), s2, s3, s4⟩
          (show t.Min.X + 1 < t.Max.X by omega)
          (show t.Min.Y ≤ t.Max.Y from hy)
          (show (t.Max.X - (t.Min.X + 1)).toNat ≤ fuel by omega)
        have i1' : (shrinkLeft img fuel ⟨⟨t.Min.X + 1, t.Min.Y⟩, t.Max⟩).Max = t.Max := i1
        have i2' : (shrinkLeft img fuel ⟨⟨t.Min.X + 1, t.Min.Y⟩, t.Max⟩).Min.Y = t.Min.Y := i2
        have i3' : t.Min.X + 1 ≤ (shrinkLeft img fuel ⟨⟨t.Min.X + 1, t.Min.Y⟩, t.Max⟩).Min.X := i3
        have i4' : (shrinkLeft img fuel ⟨⟨t.Min.X + 1, t.Min.Y⟩, t.Max⟩).Min.X < t.Max.X := i4
        have i5' : ∀ x y, t.Min.X + 1 ≤ x →
            x < (shrinkLeft img fuel ⟨⟨t.Min.X + 1, t.Min.Y⟩, t.Max⟩).Min.X →
            t.Min.Y ≤ y → y < t.Max.Y → img.alpha x y = 0 := i5
        have i6' : (shrinkLeft img fuel ⟨⟨t.Min.X + 1, t.Min.Y⟩, t.Max⟩).Min.X = t.Max.X - 1 ∨
            ∃ y, t.Min.Y ≤ y ∧ y < t.Max.Y ∧
              img.alpha ((shrinkLeft img fuel ⟨⟨t.Min.X + 1, t.Min.Y⟩, t.Max⟩).Min.X) y
                ≠ 0 := i6
        rw [hstep]
        refine ⟨i1', i2', by omega, i4', ?_, i6'⟩
        intro x y a1 a2 a3 a4
        rcases Decidable.em (t.Min.X + 1 ≤ x) with hge | hlt
        · exact i5' x y hge a2 a3 a4
        · exact hzero x y a1 (by omega) a3 a4
      · have hstep : shrinkLeft img (fuel+1) t = t := by
          simp only [shrinkLeft]
          rw [if_neg hcond]
        rw [hstep]
        refine ⟨rfl, rfl, le_refl _, hx, fun x y a1 a2 _ _ => absurd a2 (by omega), ?_⟩
        by_cases hdx : t.Max.X - t.Min.X > 1
        · have hne : ImageMaxAlpha
              (SubImage img (imageRect t.Min.X t.Min.Y (t.Min.X + 1) t.Max.Y)) ≠ 0 :=
            fun h => hcond ⟨hdx, h⟩
          have hstrip : (imageRect t.Min.X t.Min.Y (t.Min.X + 1) t.Max.Y).Sub img.bounds := by
            rw [imageRect_of_le (by omega) (by omega)]
            exact ⟨s1, (by omega : t.Min.X + 1 ≤ img.bounds.Max.X), s3, s4⟩
          have hex : ¬ ∀ x y, (imageRect t.Min.X t.Min.Y (t.Min.X + 1) t.Max.Y).Mem x y →
              img.alpha x y = 0 :=
            fun h => hne ((ImageMaxAlpha_SubImage_eq_zero_iff hstrip).mpr h)
          push_neg at hex
          obtain ⟨x, y, hm, hα⟩ := hex
          rw [imageRect_of_le (by omega) (by omega)] at hm
          obtain ⟨m1, m2, m3, m4⟩ := hm
          have m1' : t.Min.X ≤ x := m1
          have m2' : x < t.Min.X + 1 := m2
          have m3' : t.Min.Y ≤ y := m3
          have m4' : y < t.Max.Y := m4
          right
          refine ⟨y, m3', m4', ?_⟩
          have hxeq : x = t.Min.X := by omega
          subst hxeq
          exact hα
        · left
          omega

theorem shrinkBottom_spec (img : Img) :
    ∀ (fuel : Nat) (t : Rectangle),
      t.Sub img.bounds →
      t.Min.X ≤ t.Max.X → t.Min.Y < t.Max.Y →
      (t.Max.Y - t.Min.Y).toNat ≤ fuel →
      (shrinkBottom img fuel t).Min = t.Min ∧
      (shrinkBottom img fuel t).Max.X = t.Max.X ∧
      t.Min.Y < (shrinkBottom img fuel t).Max.Y ∧
      (shrinkBottom img fuel t).Max.Y ≤ t.Max.Y ∧
      (∀ x y, t.Min.X ≤ x → x < t.Max.X →
        (shrinkBottom img fuel t).Max.Y ≤ y → y < t.Max.Y → img.alpha x y = 0) ∧
      ((shrinkBottom img fuel t).Max.Y = t.Min.Y + 1 ∨
        ∃ x, t.Min.X ≤ x ∧ x < t.Max.X ∧
          img.alpha x ((shrinkBottom img fuel t).Max.Y - 1) ≠ 0) := by
  intro fuel
  induction fuel with
  | zero => intro t _ _ hy hfuel; omega
  | succ fuel ih =>
      intro t hsub hx hy hfuel
      obtain ⟨s1, s2, s3, s4⟩ := hsub
      by_cases hcond : t.Max.Y - t.Min.Y > 1 ∧
          ImageMaxAlpha (SubImage img (imageRect t.Min.X (t.Max.Y - 1) t.Max.X t.Max.Y)) = 0
      · have hstep : shrinkBottom img (fuel+1) t =
            shrinkBottom img fuel ⟨t.Min, ⟨t.Max.X, t.Max.Y - 1⟩⟩ := by
          simp only [shrinkBottom]
          rw [if_pos hcond]
        obtain ⟨hc1, hc2⟩ := hcond
        have hstrip : (imageRect t.Min.X (t.Max.Y - 1) t.Max.X t.Max.Y).Sub img.bounds := by
          rw [imageRect_of_le (by omega) (by omega)]
          exact ⟨s1, s2, (by omega : img.bounds.Min.Y ≤ t.Max.Y - 1), s4⟩
        have hzero : ∀ x y, t.Min.X ≤ x → x < t.Max.X → t.Max.Y - 1 ≤ y → y < t.Max.Y →
            img.alpha x y = 0 := by
          intro x y a1 a2 a3 a4
          have hiff := (ImageMaxAlpha_SubImage_eq_zero_iff hstrip).mp hc2 x y
          rw [imageRect_of_le (by omega) (by omega)] at hiff
          exact hiff ⟨a1, a2, a3, a4⟩
        obtain ⟨i1, i2, i3, i4, i5, i6⟩ := ih ⟨t.Min, ⟨t.Max.X, t.Max.Y - 1⟩⟩
          ⟨s1, s2, s3, (show t.Max.Y - 1 ≤ img.bounds.Max.Y by omega)⟩
          (show t.Min.X ≤ t.Max.X from hx)
          (show t.Min.Y < t.Max.Y - 1 by omega)
          (show (t.Max.Y - 1 - t.Min.Y).toNat ≤ fuel by omega)
        have i1' : (shrinkBottom img fuel ⟨t.Min, ⟨t.Max.X, t.Max.Y - 1⟩⟩).Min = t.Min := i1
        have i2' : (shrinkBottom img fuel ⟨t.Min, ⟨t.Max.X, t.Max.Y - 1⟩⟩).Max.X = t.Max.X := i2
        have i3' : t.Min.Y < (shrinkBottom img fuel ⟨t.Min, ⟨t.Max.X, t.Max.Y - 1⟩⟩).Max.Y := i3
        have i4' : (shrinkBottom img fuel ⟨t.Min, ⟨t.Max.X, t.Max.Y - 1⟩⟩).Max.Y ≤
            t.Max.Y - 1 := i4
        have i5' : ∀ x y, t.Min.X ≤ x → x < t.Max.X →
            (shrinkBottom img fuel ⟨t.Min, ⟨t.Max.X, t.Max.Y - 1⟩⟩).Max.Y ≤ y →
            y < t.Max.Y - 1 → img.alpha x y = 0 := i5
        have i6' : (shrinkBottom img fuel ⟨t.Min, ⟨t.Max.X, t.Max.Y - 1⟩⟩).Max.Y = t.Min.Y + 1 ∨
            ∃ x, t.Min.X ≤ x ∧ x < t.Max.X ∧
              img.alpha x ((shrinkBottom img fuel ⟨t.Min, ⟨t.Max.X, t.Max.Y - 1⟩⟩).Max.Y - 1)
                ≠ 0 := i6
        rw [hstep]
        refine ⟨i1', i2', i3', by omega, ?_, i6'⟩
        intro x y a1 a2 a3 a4
        rcases Decidable.em (y < t.Max.Y - 1) with hlt | hge
        · exact i5' x y a1 a2 a3 hlt
        · exact hzero x y a1 a2 (by omega) a4
      · have hstep : shrinkBottom img (fuel+1) t = t := by
          simp only [shrinkBottom]
          rw [if_neg hcond]
        rw [hstep]
        refine ⟨rfl, rfl, hy, le_refl _, fun x y _ _ a3 a4 => absurd a4 (by omega), ?_⟩
        by_cases hdy : t.Max.Y - t.Min.Y > 1
        · have hne : ImageMaxAlpha
              (SubImage img (imageRect t.Min.X (t.Max.Y - 1) t.Max.X t.Max.Y)) ≠ 0 :=
            fun h => hcond ⟨hdy, h⟩
          have hstrip : (imageRect t.Min.X (t.Max.Y - 1) t.Max.X t.Max.Y).Sub img.bounds := by
            rw [imageRect_of_le (by omega) (by omega)]
            exact ⟨s1, s2, (by omega : img.bounds.Min.Y ≤ t.Max.Y - 1), s4⟩
          have hex : ¬ ∀ x y, (imageRect t.Min.X (t.Max.Y - 1) t.Max.X t.Max.Y).Mem x y →
              img.alpha x y = 0 :=
            fun h => hne ((ImageMaxAlpha_SubImage_eq_zero_iff hstrip).mpr h)
          push_neg at hex
          obtain ⟨x, y, hm, hα⟩ := hex
          rw [imageRect_of_le (by omega) (by omega)] at hm
          obtain ⟨m1, m2, m3, m4⟩ := hm
          have m1' : t.Min.X ≤ x := m1
          have m2' : x < t.Max.X := m2
          have m3' : t.Max.Y - 1 ≤ y := m3
          have m4' : y < t.Max.Y := m4
          right
          refine ⟨x, m1', m2', ?_⟩
          have hyeq : y = t.Max.Y - 1 := by omega
          subst hyeq
          exact hα
        · left
          omega

theorem shrinkTop_spec (img : Img) :
    ∀ (fuel : Nat) (t : Rectangle),
      t.Sub img.bounds →
      t.Min.X ≤ t.Max.X → t.Min.Y < t.Max.Y →
      (t.Max.Y - t.Min.Y).toNat ≤ fuel →
      (shrinkTop img fuel t).Max = t.Max ∧
      (shrinkTop img fuel t).Min.X = t.Min.X ∧
      t.Min.Y ≤ (shrinkTop img fuel t).Min.Y ∧
      (shrinkTop img fuel t).Min.Y < t.Max.Y ∧
      (∀ x y, t.Min.X ≤ x → x < t.Max.X →
        t.Min.Y ≤ y → y < (shrinkTop img fuel t).Min.Y → img.alpha x y = 0) ∧
      ((shrinkTop img fuel t).Min.Y = t.Max.Y - 1 ∨
        ∃ x, t.Min.X ≤ x ∧ x < t.Max.X ∧
          img.alpha x ((shrinkTop img fuel t).Min.Y) ≠ 0) := by
  intro fuel
  induction fuel with
  | zero => intro t _ _ hy hfuel; omega
  | succ fuel ih =>
      intro t hsub hx hy hfuel
      obtain ⟨s1, s2, s3, s4⟩ := hsub
      by_cases hcond : t.Max.Y - t.Min.Y > 1 ∧
          ImageMaxAlpha (SubImage img (imageRect t.Min.X t.Min.Y t.Max.X (t.Min.Y + 1))) = 0
      · have hstep : shrinkTop img (fuel+1) t =
            shrinkTop img fuel ⟨⟨t.Min.X, t.Min.Y + 1⟩, t.Max⟩ := by
          simp only [shrinkTop]
          rw [if_pos hcond]
        obtain ⟨hc1, hc2⟩ := hcond
        have hstrip : (imageRect t.Min.X t.Min.Y t.Max.X (t.Min.Y + 1)).Sub img.bounds := by
          rw [imageRect_of_le (by omega) (by omega)]
          exact ⟨s1, s2, s3, (by omega : t.Min.Y + 1 ≤ img.bounds.Max.Y)⟩
        have hzero : ∀ x y, t.Min.X ≤ x → x < t.Max.X → t.Min.Y ≤ y → y < t.Min.Y + 1 →
            img.alpha x y = 0 := by
          intro x y a1 a2 a3 a4
          have hiff := (ImageMaxAlpha_SubImage_eq_zero_iff hstrip).mp hc2 x y
          rw [imageRect_of_le (by omega) (by omega)] at hiff
          exact hiff ⟨a1, a2, a3, a4⟩
        obtain ⟨i1, i2, i3, i4, i5, i6⟩ := ih ⟨⟨t.Min.X, t.Min.Y + 1⟩, t.Max⟩
          ⟨s1, s2, (show img.bounds.Min.Y ≤ t.Min.Y + 1 by omega), s4⟩
          (show t.Min.X ≤ t.Max.X from hx)
          (show t.Min.Y + 1 < t.Max.Y by omega)
          (show (t.Max.Y - (t.Min.Y + 1)).toNat ≤ fuel by omega)
        have i1' : (shrinkTop img fuel ⟨⟨t.Min.X, t.Min.Y + 1⟩, t.Max⟩).Max = t.Max := i1
        have i2' : (shrinkTop img fuel ⟨⟨t.Min.X, t.Min.Y + 1⟩, t.Max⟩).Min.X = t.Min.X := i2
        have i3' : t.Min.Y + 1 ≤ (shrinkTop img fuel ⟨⟨t.Min.X, t.Min.Y + 1⟩, t.Max⟩).Min.Y := i3
        have i4' : (shrinkTop img fuel ⟨⟨t.Min.X, t.Min.Y + 1⟩, t.Max⟩).Min.Y < t.Max.Y := i4
        have i5' : ∀ x y, t.Min.X ≤ x → x < t.Max.X → t.Min.Y + 1 ≤ y →
            y < (shrinkTop img fuel ⟨⟨t.Min.X, t.Min.Y + 1⟩, t.Max⟩).Min.Y →
            img.alpha x y = 0 := i5
        have i6' : (shrinkTop img fuel ⟨⟨t.Min.X, t.Min.Y + 1⟩, t.Max⟩).Min.Y = t.Max.Y - 1 ∨
            ∃ x, t.Min.X ≤ x ∧ x < t.Max.X ∧
              img.alpha x ((shrinkTop img fuel ⟨⟨t.Min.X, t.Min.Y + 1⟩, t.Max⟩).Min.Y)
                ≠ 0 := i6
        rw [hstep]
        refine ⟨i1', i2', by omega, i4', ?_, i6'⟩
        intro x y a1 a2 a3 a4
        rcases Decidable.em (t.Min.Y + 1 ≤ y) with hge | hlt
        · exact i5' x y a1 a2 hge a4
        · exact hzero x y a1 a2 a3 (by omega)
      · have hstep : shrinkTop img (fuel+1) t = t := by
          simp only [shrinkTop]
          rw [if_neg hcond]
        rw [hstep]
        refine ⟨rfl, rfl, le_refl _, hy, fun x y _ _ a3 a4 => absurd a4 (by omega), ?_⟩
        by_cases hdy : t.Max.Y - t.Min.Y > 1
        · have hne : ImageMaxAlpha
              (SubImage img (imageRect t.Min.X t.Min.Y t.Max.X (t.Min.Y + 1))) ≠ 0 :=
            fun h => hcond ⟨hdy, h⟩
          have hstrip : (imageRect t.Min.X t.Min.Y t.Max.X (t.Min.Y + 1)).Sub img.bounds := by
            rw [imageRect_of_le (by omega) (by omega)]
            exact ⟨s1, s2, s3, (by omega : t.Min.Y + 1 ≤ img.bounds.Max.Y)⟩
          have hex : ¬ ∀ x y, (imageRect t.Min.X t.Min.Y t.Max.X (t.Min.Y + 1)).Mem x y →
              img.alpha x y = 0 :=
            fun h => hne ((ImageMaxAlpha_SubImage_eq_zero_iff hstrip).mpr h)
          push_neg at hex
          obtain ⟨x, y, hm, hα⟩ := hex
          rw [imageRect_of_le (by omega) (by omega)] at hm
          obtain ⟨m1, m2, m3, m4⟩ := hm
          have m1' : t.Min.X ≤ x := m1
          have m2' : x < t.Max.X := m2
          have m3' : t.Min.Y ≤ y := m3
          have m4' : y < t.Min.Y + 1 := m4
          right
          refine ⟨x, m1', m2', ?_⟩
          have hyeq : y = t.Min.Y := by omega
          subst hyeq
          exact hα
        · left
          omega

/-- The trimmed rectangle computed by `TrimImage` before taking the final
`SubImage`. -/
def trimRect (img : Img) : Rectangle :=
  let t0 := img.bounds
  let t1 := shrinkRight img (t0.Max.X - t0.Min.X).toNat t0
  let t2 := shrinkLeft img (t1.Max.X - t1.Min.X).toNat t1
  let t3 := shrinkBottom img (t2.Max.Y - t2.Min.Y).toNat t2
  shrinkTop img (t3.Max.Y - t3.Min.Y).toNat t3

/-- What it means for `t` to be the trim result for `img`: `t` is a nonempty
sub-rectangle of the bounds; every pixel with non-zero alpha lies inside `t`;
if any pixel has non-zero alpha then all four edges of `t` carry such a pixel
(so `t` is the tight opaque bounding box); and if the image is fully
transparent then `t` is the 1x1 rectangle at the bounds' minimum corner. -/
def TightRect (img : Img) (t : Rectangle) : Prop :=
  t.Sub img.bounds ∧
  t.Min.X < t.Max.X ∧
  t.Min.Y < t.Max.Y ∧
  (∀ x y, img.bounds.Mem x y → img.alpha x y ≠ 0 → t.Mem x y) ∧
  ((∃ x y, img.bounds.Mem x y ∧ img.alpha x y ≠ 0) →
    (∃ y, t.Mem t.Min.X y ∧ img.alpha t.Min.X y ≠ 0) ∧
    (∃ y, t.Mem (t.Max.X - 1) y ∧ img.alpha (t.Max.X - 1) y ≠ 0) ∧
    (∃ x, t.Mem x t.Min.Y ∧ img.alpha x t.Min.Y ≠ 0) ∧
    (∃ x, t.Mem x (t.Max.Y - 1) ∧ img.alpha x (t.Max.Y - 1) ≠ 0)) ∧
  ((∀ x y, img.bounds.Mem x y → img.alpha x y = 0) →
    t.Min.X = img.bounds.Min.X ∧ t.Min.Y = img.bounds.Min.Y ∧
    t.Max.X = img.bounds.Min.X + 1 ∧ t.Max.Y = img.bounds.Min.Y + 1)

theorem trimRect_spec (img : Img)
    (hx : img.bounds.Min.X < img.bounds.Max.X)
    (hy : img.bounds.Min.Y < img.bounds.Max.Y) :
    TightRect img (trimRect img) := by
  suffices h : ∀ t1, t1 = shrinkRight img (img.bounds.Max.X - img.bounds.Min.X).toNat
        img.bounds →
      ∀ t2, t2 = shrinkLeft img (t1.Max.X - t1.Min.X).toNat t1 →
      ∀ t3, t3 = shrinkBottom img (t2.Max.Y - t2.Min.Y).toNat t2 →
      ∀ t4, t4 = shrinkTop img (t3.Max.Y - t3.Min.Y).toNat t3 →
      TightRect img t4 by
    exact h _ rfl _ rfl _ rfl _ rfl
  intro t1 ht1 t2 ht2 t3 ht3 t4 ht4
  have hR := shrinkRight_spec img (img.bounds.Max.X - img.bounds.Min.X).toNat img.bounds
    ⟨le_refl _, le_refl _, le_refl _, le_refl _⟩ hx (le_of_lt hy) (le_refl _)
  rw [← ht1] at hR
  obtain ⟨R1, R2, R3, R4, R5, R6⟩ := hR
  have R1x : t1.Min.X = img.bounds.Min.X := by rw [R1]
  have R1y : t1.Min.Y = img.bounds.Min.Y := by rw [R1]
  have hL := shrinkLeft_spec img (t1.Max.X - t1.Min.X).toNat t1
    ⟨by omega, by omega, by omega, by omega⟩ (by omega) (by omega) (le_refl _)
  rw [← ht2] at hL
  obtain ⟨L1, L2, L3, L4, L5, L6⟩ := hL
  have L1x : t2.Max.X = t1.Max.X := by rw [L1]
  have L1y : t2.Max.Y = t1.Max.Y := by rw [L1]
  have hB := shrinkBottom_spec img (t2.Max.Y - t2.Min.Y).toNat t2
    ⟨by omega, by omega, by omega, by omega⟩ (by omega) (by omega) (le_refl _)
  rw [← ht3] at hB
  obtain ⟨B1, B2, B3, B4, B5, B6⟩ := hB
  have B1x : t3.Min.X = t2.Min.X := by rw [B1]
  have B1y : t3.Min.Y = t2.Min.Y := by rw [B1]
  have hT := shrinkTop_spec img (t3.Max.Y - t3.Min.Y).toNat t3
    ⟨by omega, by omega, by omega, by omega⟩ (by omega) (by omega) (le_refl _)
  rw [← ht4] at hT
  obtain ⟨T1, T2, T3, T4, T5, T6⟩ := hT
  have T1x : t4.Max.X = t3.Max.X := by rw [T1]
  have T1y : t4.Max.Y = t3.Max.Y := by rw [T1]
  have hcont : ∀ x y, img.bounds.Mem x y → img.alpha x y ≠ 0 → t4.Mem x y := by
    intro x y hm hα
    obtain ⟨p1, p2, p3, p4⟩ := hm
    have hx1 : x < t1.Max.X := by
      by_contra hge
      push_neg at hge
      exact hα (R5 x y hge p2 p3 p4)
    have hx2 : t2.Min.X ≤ x := by
      by_contra hlt
      push_neg at hlt
      exact hα (L5 x y (by omega) hlt (by omega) (by omega))
    have hy1 : y < t3.Max.Y := by
      by_contra hge
      push_neg at hge
      exact hα (B5 x y (by omega) (by omega) hge (by omega))
    have hy2 : t4.Min.Y ≤ y := by
      by_contra hlt
      push_neg at hlt
      exact hα (T5 x y (by omega) (by omega) (by omega) hlt)
    exact ⟨by omega, by omega, hy2, by omega⟩
  unfold TightRect
  refine ⟨⟨by omega, by omega, by omega, by omega⟩, by omega, by omega, hcont, ?_, ?_⟩
  · rintro ⟨x0, y0, hm0, hα0⟩
    obtain ⟨q1, q2, q3, q4⟩ := hm0
    obtain ⟨c1, c2, c3, c4⟩ := hcont x0 y0 ⟨q1, q2, q3, q4⟩ hα0
    refine ⟨?_, ?_, ?_, ?_⟩
    · rcases L6 with h | ⟨y, hy1', hy2', hα⟩
      · have hx0 : x0 = t4.Min.X := by
          by_cases hlt : x0 < t2.Min.X
          · exact absurd (L5 x0 y0 (by omega) hlt (by omega) (by omega)) hα0
          · omega
        exact ⟨y0, by rw [← hx0]; exact ⟨c1, c2, c3, c4⟩, by rw [← hx0]; exact hα0⟩
      · have hmemb : img.bounds.Mem t2.Min.X y := ⟨by omega, by omega, by omega, by omega⟩
        have hmem := hcont _ _ hmemb hα
        have he : t2.Min.X = t4.Min.X := by omega
        rw [he] at hmem hα
        exact ⟨y, hmem, hα⟩
    · rcases R6 with h | ⟨y, hy1', hy2', hα⟩
      · have hx0 : x0 = t4.Max.X - 1 := by omega
        exact ⟨y0, by rw [← hx0]; exact ⟨c1, c2, c3, c4⟩, by rw [← hx0]; exact hα0⟩
      · have hmemb : img.bounds.Mem (t1.Max.X - 1) y := ⟨by omega, by omega, hy1', hy2'⟩
        have hmem := hcont _ _ hmemb hα
        have he : t1.Max.X - 1 = t4.Max.X - 1 := by omega
        rw [he] at hmem hα
        exact ⟨y, hmem, hα⟩
    · rcases T6 with h | ⟨x, hx1', hx2', hα⟩
      · have hy0 : y0 = t4.Min.Y := by omega
        exact ⟨x0, by rw [← hy0]; exact ⟨c1, c2, c3, c4⟩, by rw [← hy0]; exact hα0⟩
      · have hmemb : img.bounds.Mem x t4.Min.Y := ⟨by omega, by omega, by omega, by omega⟩
        exact ⟨x, hcont _ _ hmemb hα, hα⟩
    · rcases B6 with h | ⟨x, hx1', hx2', hα⟩
      · have hy0 : y0 = t4.Max.Y - 1 := by omega
        exact ⟨x0, by rw [← hy0]; exact ⟨c1, c2, c3, c4⟩, by rw [← hy0]; exact hα0⟩
      · have hmemb : img.bounds.Mem x (t3.Max.Y - 1) := ⟨by omega, by omega, by omega, by omega⟩
        have hmem := hcont _ _ hmemb hα
        have he : t3.Max.Y - 1 = t4.Max.Y - 1 := by omega
        rw [he] at hmem hα
        exact ⟨x, hmem, hα⟩
  · intro hz
    have htx : t1.Max.X = img.bounds.Min.X + 1 := by
      rcases R6 with h | ⟨y, h1, h2, hα⟩
      · exact h
      · exact absurd (hz _ _ ⟨by omega, by omega, h1, h2⟩) hα
    have hby : t3.Max.Y = img.bounds.Min.Y + 1 := by
      rcases B6 with h | ⟨x, h1, h2, hα⟩
      · omega
      · exact absurd (hz x (t3.Max.Y - 1) ⟨by omega, by omega, by omega, by omega⟩) hα
    exact ⟨by omega, by omega, by omega, by omega⟩

/-- C6: trim correctness.  For every image with nonempty bounds, `TrimImage`
returns the same pixels (`alpha` unchanged) cropped to a rectangle that is the
tight bounding box of the pixels with non-zero alpha: the result's bounds are
a nonempty sub-rectangle of the original bounds (their minimum corner is the
offset of the box in the original image), every non-zero-alpha pixel lies
inside them, each of their four edges carries a non-zero-alpha pixel when one
exists, each axis extent stays at least 1, and a fully transparent image
yields the 1x1 rectangle at the original minimum corner rather than an empty
rectangle. -/
theorem c6_trim_correctness (img : Img)
    (hx : img.bounds.Min.X < img.bounds.Max.X)
    (hy : img.bounds.Min.Y < img.bounds.Max.Y) :
    (TrimImage img).alpha = img.alpha ∧ TightRect img (TrimImage img).bounds := by
  have hspec := trimRect_spec img hx hy
  have hspec' := hspec
  unfold TightRect at hspec'
  obtain ⟨hsub, h1, h2, _, _, _⟩ := hspec'
  have hb : (TrimImage img).bounds = trimRect img := by
    show (trimRect img).Intersect img.bounds = trimRect img
    refine Intersect_of_sub hsub ?_
    simp only [Rectangle.Empty, Bool.or_eq_false_iff, decide_eq_false_iff_not, not_le]
    exact ⟨h1, h2⟩
  rw [hb]
  exact ⟨rfl, hspec⟩

/-- Concrete 3x3 image whose only non-transparent pixel is at `(1, 1)`. -/
def c6Img : Img := ⟨imageRect 0 0 3 3, fun x y => if x = 1 ∧ y = 1 then 255 else 0⟩

/-- Witness for C6 at a concrete 3x3 image: the hypotheses hold and the
trimmed bounds are the 1x1 tight box around the single opaque pixel. -/
theorem c6_trim_correctness_witness :
    c6Img.bounds.Min.X < c6Img.bounds.Max.X ∧
    c6Img.bounds.Min.Y < c6Img.bounds.Max.Y ∧
    (TrimImage c6Img).bounds = imageRect 1 1 2 2 ∧
    ((TrimImage c6Img).alpha = c6Img.alpha ∧ TightRect c6Img (TrimImage c6Img).bounds) :=
  ⟨by decide, by decide, by decide, c6_trim_correctness c6Img (by decide) (by decide)⟩

theorem ImageMaxAlpha_SubImage_ne_zero {img : Img} {s : Rectangle} (hsub : s.Sub img.bounds)
    {x y : Int} (hm : s.Mem x y) (hα : img.alpha x y ≠ 0) :
    ImageMaxAlpha (SubImage img s) ≠ 0 :=
  fun h => hα ((ImageMaxAlpha_SubImage_eq_zero_iff hsub).mp h x y hm)

theorem shrinkRight_id (img : Img) (fuel : Nat) (t : Rectangle)
    (h : ¬(t.Max.X - t.Min.X > 1 ∧
      ImageMaxAlpha (SubImage img (imageRect (t.Max.X - 1) t.Min.Y t.Max.X t.Max.Y)) = 0)) :
    shrinkRight img fuel t = t := by
  cases fuel with
  | zero => rfl
  | succ n =>
      simp only [shrinkRight]
      rw [if_neg h]

theorem shrinkLeft_id (img : Img) (fuel : Nat) (t : Rectangle)
    (h : ¬(t.Max.X - t.Min.X > 1 ∧
      ImageMaxAlpha (SubImage img (imageRect t.Min.X t.Min.Y (t.Min.X + 1) t.Max.Y)) = 0)) :
    shrinkLeft img fuel t = t := by
  cases fuel with
  | zero => rfl
  | succ n =>
      simp only [shrinkLeft]
      rw [if_neg h]

theorem shrinkBottom_id (img : Img) (fuel : Nat) (t : Rectangle)
    (h : ¬(t.Max.Y - t.Min.Y > 1 ∧
      ImageMaxAlpha (SubImage img (imageRect t.Min.X (t.Max.Y - 1) t.Max.X t.Max.Y)) = 0)) :
    shrinkBottom img fuel t = t := by
  cases fuel with
  | zero => rfl
  | succ n =>
      simp only [shrinkBottom]
      rw [if_neg h]

theorem shrinkTop_id (img : Img) (fuel : Nat) (t : Rectangle)
    (h : ¬(t.Max.Y - t.Min.Y > 1 ∧
      ImageMaxAlpha (SubImage img (imageRect t.Min.X t.Min.Y t.Max.X (t.Min.Y + 1))) = 0)) :
    shrinkTop img fuel t = t := by
  cases fuel with
  | zero => rfl
  | succ n =>
      simp only [shrinkTop]
      rw [if_neg h]

theorem foldr_max_of_all_eq {α : Type _} (f : α → Nat) (c : Nat) :
    ∀ l : List α, l ≠ [] → (∀ p ∈ l, f p = c) →
      l.foldr (fun p m => max (f p) m) 0 = c := by
  intro l
  induction l with
  | nil => intro h; exact absurd rfl h
  | cons a l ih =>
      intro _ hall
      have ha : f a = c := hall a (List.mem_cons_self a l)
      cases l with
      | nil =>
          simp only [List.foldr_cons, List.foldr_nil]
          rw [ha]
          exact Nat.max_zero c
      | cons b l2 =>
          have ht := ih (by simp) (fun p hp => hall p (List.mem_cons_of_mem a hp))
          simp only [List.foldr_cons] at ht ⊢
          rw [ht, ha, Nat.max_self]

theorem ImageMaxAlpha_of_const255 (img : Img)
    (hx : img.bounds.Min.X < img.bounds.Max.X)
    (hy : img.bounds.Min.Y < img.bounds.Max.Y)
    (hall : ∀ x y, img.bounds.Mem x y → img.alpha x y = 255) :
    ImageMaxAlpha img = 255 := by
  unfold ImageMaxAlpha
  refine foldr_max_of_all_eq (fun p : Int × Int => img.alpha p.1 p.2) 255 _ ?_ ?_
  · exact List.ne_nil_of_mem
      (mem_rectPoints.mpr ⟨le_refl _, hx, le_refl _, hy⟩)
  · rintro ⟨x, y⟩ hp
    exact hall x y (mem_rectPoints.mp hp)

/-- A decoded source image as handed to `Atlas.AddImage`: its bounds, whether
its color model carries an alpha channel, and the per-pixel source alpha
(meaningful only when `hasAlpha` is set; a model without alpha reports every
pixel fully opaque). -/
structure Decoded where
  bounds : Rectangle
  hasAlpha : Bool
  alpha : Int → Int → Nat

/-- `AddImage`'s conversion step: a zero-initialized RGBA of the source's
bounds (`image.NewRGBA`, alpha `0` everywhere) onto which the source is drawn
over the whole bounds from source origin (`draw.Draw(..., image.ZP,
draw.Over)`); over a fully transparent destination the result's alpha is the
source's alpha, and a source without an alpha channel reports the maximum
alpha `255` at every pixel. -/
def convertToRGBA (d : Decoded) : Img :=
  ⟨d.bounds, fun x y =>
    if d.bounds.Mem x y then
      if d.hasAlpha then d.alpha (x - d.bounds.Min.X) (y - d.bounds.Min.Y) else 255
    else 0⟩

/-- C9: alpha fallback.  For every decoded input image without an alpha
channel (and nonempty bounds), the trimming path treats it as fully opaque:
after `AddImage`'s conversion onto a fresh RGBA the maximum alpha reported is
the full `255`, and `TrimImage` trims nothing away — the result keeps the
original bounds and pixels.  The fallback is the explicit conversion step, so
the path neither fails nor silently drops pixels. -/
theorem c9_alpha_fallback (d : Decoded)
    (hna : d.hasAlpha = false)
    (hx : d.bounds.Min.X < d.bounds.Max.X)
    (hy : d.bounds.Min.Y < d.bounds.Max.Y) :
    ImageMaxAlpha (convertToRGBA d) = 255 ∧
    (TrimImage (convertToRGBA d)).bounds = d.bounds ∧
    (TrimImage (convertToRGBA d)).alpha = (convertToRGBA d).alpha := by
  have hball : ∀ x y, d.bounds.Mem x y → (convertToRGBA d).alpha x y = 255 := by
    intro x y hm
    show (if d.bounds.Mem x y then
        if d.hasAlpha then d.alpha (x - d.bounds.Min.X) (y - d.bounds.Min.Y) else 255
      else 0) = 255
    rw [if_pos hm, hna]
    rfl
  have hne255 : ∀ s : Rectangle, s.Sub d.bounds →
      (∃ px py : Int, s.Mem px py ∧ d.bounds.Mem px py) →
      ImageMaxAlpha (SubImage (convertToRGBA d) s) ≠ 0 := by
    rintro s hsub ⟨px, py, hms, hmb⟩
    refine ImageMaxAlpha_SubImage_ne_zero hsub hms ?_
    rw [hball px py hmb]
    decide
  have hc1 : ¬(d.bounds.Max.X - d.bounds.Min.X > 1 ∧
      ImageMaxAlpha (SubImage (convertToRGBA d)
        (imageRect (d.bounds.Max.X - 1) d.bounds.Min.Y d.bounds.Max.X d.bounds.Max.Y)) = 0) := by
    rintro ⟨hgt, h0⟩
    refine hne255 _ ?_ ⟨d.bounds.Max.X - 1, d.bounds.Min.Y, ?_, ?_⟩ h0
    · rw [imageRect_of_le (by omega) (by omega)]
      exact ⟨(show d.bounds.Min.X ≤ d.bounds.Max.X - 1 by omega),
             (show d.bounds.Max.X ≤ d.bounds.Max.X from le_refl _),
             (show d.bounds.Min.Y ≤ d.bounds.Min.Y from le_refl _),
             (show d.bounds.Max.Y ≤ d.bounds.Max.Y from le_refl _)⟩
    · rw [imageRect_of_le (by omega) (by omega)]
      exact ⟨(show d.bounds.Max.X - 1 ≤ d.bounds.Max.X - 1 from le_refl _),
             (show d.bounds.Max.X - 1 < d.bounds.Max.X by omega),
             (show d.bounds.Min.Y ≤ d.bounds.Min.Y from le_refl _),
             (show d.bounds.Min.Y < d.bounds.Max.Y from hy)⟩
    · exact ⟨by omega, by omega, le_refl _, hy⟩
  have hc2 : ¬(d.bounds.Max.X - d.bounds.Min.X > 1 ∧
      ImageMaxAlpha (SubImage (convertToRGBA d)
        (imageRect d.bounds.Min.X d.bounds.Min.Y (d.bounds.Min.X + 1) d.bounds.Max.Y)) = 0) := by
    rintro ⟨hgt, h0⟩
    refine hne255 _ ?_ ⟨d.bounds.Min.X, d.bounds.Min.Y, ?_, ?_⟩ h0
    · rw [imageRect_of_le (by omega) (by omega)]
      exact ⟨(show d.bounds.Min.X ≤ d.bounds.Min.X from le_refl _),
             (show d.bounds.Min.X + 1 ≤ d.bounds.Max.X by omega),
             (show d.bounds.Min.Y ≤ d.bounds.Min.Y from le_refl _),
             (show d.bounds.Max.Y ≤ d.bounds.Max.Y from le_refl _)⟩
    · rw [imageRect_of_le (by omega) (by omega)]
      exact ⟨(show d.bounds.Min.X ≤ d.bounds.Min.X from le_refl _),
             (show d.bounds.Min.X < d.bounds.Min.X + 1 by omega),
             (show d.bounds.Min.Y ≤ d.bounds.Min.Y from le_refl _),
             (show d.bounds.Min.Y < d.bounds.Max.Y from hy)⟩
    · exact ⟨le_refl _, hx, le_refl _, hy⟩
  have hc3 : ¬(d.bounds.Max.Y - d.bounds.Min.Y > 1 ∧
      ImageMaxAlpha (SubImage (convertToRGBA d)
        (imageRect d.bounds.Min.X (d.bounds.Max.Y - 1) d.bounds.Max.X d.bounds.Max.Y)) = 0) := by
    rintro ⟨hgt, h0⟩
    refine hne255 _ ?_ ⟨d.bounds.Min.X, d.bounds.Max.Y - 1, ?_, ?_⟩ h0
    · rw [imageRect_of_le (by omega) (by omega)]
      exact ⟨(show d.bounds.Min.X ≤ d.bounds.Min.X from le_refl _),
             (show d.bounds.Max.X ≤ d.bounds.Max.X from le_refl _),
             (show d.bounds.Min.Y ≤ d.bounds.Max.Y - 1 by omega),
             (show d.bounds.Max.Y ≤ d.bounds.Max.Y from le_refl _)⟩
    · rw [imageRect_of_le (by omega) (by omega)]
      exact ⟨(show d.bounds.Min.X ≤ d.bounds.Min.X from le_refl _),
             (show d.bounds.Min.X < d.bounds.Max.X from hx),
             (show d.bounds.Max.Y - 1 ≤ d.bounds.Max.Y - 1 from le_refl _),
             (show d.bounds.Max.Y - 1 < d.bounds.Max.Y by omega)⟩
    · exact ⟨le_refl _, hx, by omega, by omega⟩
  have hc4 : ¬(d.bounds.Max.Y - d.bounds.Min.Y > 1 ∧
      ImageMaxAlpha (SubImage (convertToRGBA d)
        (imageRect d.bounds.Min.X d.bounds.Min.Y d.bounds.Max.X (d.bounds.Min.Y + 1))) = 0) := by
    rintro ⟨hgt, h0⟩
    refine hne255 _ ?_ ⟨d.bounds.Min.X, d.bounds.Min.Y, ?_, ?_⟩ h0
    · rw [imageRect_of_le (by omega) (by omega)]
      exact ⟨(show d.bounds.Min.X ≤ d.bounds.Min.X from le_refl _),
             (show d.bounds.Max.X ≤ d.bounds.Max.X from le_refl _),
             (show d.bounds.Min.Y ≤ d.bounds.Min.Y from le_refl _),
             (show d.bounds.Min.Y + 1 ≤ d.bounds.Max.Y by omega)⟩
    · rw [imageRect_of_le (by omega) (by omega)]
      exact ⟨(show d.bounds.Min.X ≤ d.bounds.Min.X from le_refl _),
             (show d.bounds.Min.X < d.bounds.Max.X from hx),
             (show d.bounds.Min.Y ≤ d.bounds.Min.Y from le_refl _),
             (show d.bounds.Min.Y < d.bounds.Min.Y + 1 by omega)⟩
    · exact ⟨le_refl _, hx, le_refl _, hy⟩
  have e1 : ∀ fuel, shrinkRight (convertToRGBA d) fuel d.bounds = d.bounds :=
    fun fuel => shrinkRight_id _ fuel _ hc1
  have e2 : ∀ fuel, shrinkLeft (convertToRGBA d) fuel d.bounds = d.bounds :=
    fun fuel => shrinkLeft_id _ fuel _ hc2
  have e3 : ∀ fuel, shrinkBottom (convertToRGBA d) fuel d.bounds = d.bounds :=
    fun fuel => shrinkBottom_id _ fuel _ hc3
  have e4 : ∀ fuel, shrinkTop (convertToRGBA d) fuel d.bounds = d.bounds :=
    fun fuel => shrinkTop_id _ fuel _ hc4
  have htr : trimRect (convertToRGBA d) = d.bounds := by
    show shrinkTop (convertToRGBA d) _
        (shrinkBottom (convertToRGBA d) _
          (shrinkLeft (convertToRGBA d) _
            (shrinkRight (convertToRGBA d) _ d.bounds))) = d.bounds
    rw [e1, e2, e3, e4]
  have hb : (TrimImage (convertToRGBA d)).bounds = d.bounds := by
    show (trimRect (convertToRGBA d)).Intersect d.bounds = d.bounds
    rw [htr]
    refine Intersect_of_sub ⟨le_refl _, le_refl _, le_refl _, le_refl _⟩ ?_
    simp only [Rectangle.Empty, Bool.or_eq_false_iff, decide_eq_false_iff_not, not_le]
    exact ⟨hx, hy⟩
  have hmax : ImageMaxAlpha (convertToRGBA d) = 255 :=
    ImageMaxAlpha_of_const255 _ hx hy hball
  exact ⟨hmax, hb, rfl⟩

/-- Concrete decoded 2x2 image without an alpha channel. -/
def c9Dec : Decoded := ⟨imageRect 0 0 2 2, false, fun _ _ => 0⟩

/-- Witness for C9 at a concrete 2x2 alpha-less image. -/
theorem c9_alpha_fallback_witness :
    c9Dec.hasAlpha = false ∧
    c9Dec.bounds.Min.X < c9Dec.bounds.Max.X ∧
    c9Dec.bounds.Min.Y < c9Dec.bounds.Max.Y ∧
    (ImageMaxAlpha (convertToRGBA c9Dec) = 255 ∧
     (TrimImage (convertToRGBA c9Dec)).bounds = c9Dec.bounds ∧
     (TrimImage (convertToRGBA c9Dec)).alpha = (convertToRGBA c9Dec).alpha) :=
  ⟨rfl, by decide, by decide, c9_alpha_fallback c9Dec rfl (by decide) (by decide)⟩
